import Mathlib

/-!
Verification of the NLU core of a Spanish maintenance-reporting chatbot
(normalization, greeting/farewell detection, intent detection, slot and
date-range extraction), shallowly embedded from the Python source
(app/nlu.py).

Modelling conventions:
* Text is a list of characters (abbreviated Str).  String literals are
  injected with str.
* Unicode behaviour (lower-casing, canonical NFD decomposition, combining
  marks, whitespace) is modelled by finite tables covering the alphabet the
  program works with: ASCII, the Spanish accented letters, the combining
  diacritical marks and the usual whitespace characters.  Characters outside
  the tables are case-stable, decompose to themselves, and are neither marks
  nor whitespace.
* Python regular-expression searches are embedded per pattern: every intent
  pattern is a sequence of word-bounded alternation groups separated by
  greedy gaps, which the engine below implements; the date patterns get
  dedicated scanners mirroring leftmost search with greedy quantifiers.
* Fallible library calls (date construction, date minus timedelta, the
  timedelta day-range limit) return Except values mirroring the ValueError /
  OverflowError raised by CPython; everything else is total.
* The current UTC instant (datetime.utcnow) is passed explicitly as a
  reference date.
-/

namespace Nlu

abbrev Str := List Char

/-- Inject a Lean string literal as a character list. -/
def str (s : String) : Str := s.data

/-- Whitespace characters of the modelled alphabet (Python str.strip and
regex backslash-s agree on these). -/
def isSp (c : Char) : Bool :=
  c == ' ' || c == '\t' || c == '\n' || c == '\r' || c == '\u000b' || c == '\u000c'

/-- Lower-casing table: ASCII capitals and accented Spanish capitals. -/
def lowerTable : List (Char × Char) :=
  [('A','a'),('B','b'),('C','c'),('D','d'),('E','e'),('F','f'),('G','g'),
   ('H','h'),('I','i'),('J','j'),('K','k'),('L','l'),('M','m'),('N','n'),
   ('O','o'),('P','p'),('Q','q'),('R','r'),('S','s'),('T','t'),('U','u'),
   ('V','v'),('W','w'),('X','x'),('Y','y'),('Z','z'),
   ('Á','á'),('É','é'),('Í','í'),('Ó','ó'),('Ú','ú'),('Ü','ü'),('Ñ','ñ')]

/-- Python str.lower on the modelled alphabet (identity elsewhere). -/
def lowerChar (c : Char) : Char :=
  ((lowerTable.find? (fun p => p.1 == c)).map Prod.snd).getD c

/-- The combining diacritical marks of the modelled alphabet
(category Mn: grave, acute, tilde, diaeresis). -/
def marksList : List Char := ['\u0300', '\u0301', '\u0303', '\u0308']

/-- Unicode category Mn (nonspacing combining mark) on the modelled alphabet. -/
def isMn (c : Char) : Bool := marksList.contains c

/-- Canonical (NFD) decomposition table for the precomposed characters of the
modelled alphabet. -/
def nfdTable : List (Char × Str) :=
  [('á', ['a', '\u0301']), ('é', ['e', '\u0301']), ('í', ['i', '\u0301']),
   ('ó', ['o', '\u0301']), ('ú', ['u', '\u0301']), ('ü', ['u', '\u0308']),
   ('ñ', ['n', '\u0303']),
   ('Á', ['A', '\u0301']), ('É', ['E', '\u0301']), ('Í', ['I', '\u0301']),
   ('Ó', ['O', '\u0301']), ('Ú', ['U', '\u0301']), ('Ü', ['U', '\u0308']),
   ('Ñ', ['N', '\u0303'])]

/-- unicodedata.normalize NFD on a single character of the modelled
alphabet (identity elsewhere). -/
def nfdChar (c : Char) : Str :=
  ((nfdTable.find? (fun p => p.1 == c)).map Prod.snd).getD [c]

/-- Python str.strip from the left: drop leading whitespace. -/
def trimL (s : Str) : Str := s.dropWhile isSp

/-- Python str.strip from the right: drop trailing whitespace. -/
def trimR : Str → Str
  | [] => []
  | c :: r =>
    match trimR r with
    | [] => if isSp c then [] else [c]
    | d :: r2 => c :: d :: r2

/-- Python str.strip. -/
def trim (s : Str) : Str := trimR (trimL s)

/-- NFD-decompose and drop every combining mark: the accent-stripping step
of the normalizer. -/
def stripMarks (s : Str) : Str := ((s.map nfdChar).flatten).filter (fun c => !(isMn c))

/-- State-carrying core of whitespace collapsing: the flag records whether we
are inside a whitespace run whose single space was already emitted. -/
def collapseAux : Bool → Str → Str
  | _, [] => []
  | pSp, c :: r =>
    if isSp c then
      if pSp then collapseAux true r else ' ' :: collapseAux true r
    else c :: collapseAux false r

/-- re.sub of one-or-more whitespace by a single space. -/
def collapse (s : Str) : Str := collapseAux false s

/-- The normalizer of the source (function named with a leading underscore
there): lower-case, strip edges, drop combining marks after NFD, collapse
whitespace runs to single spaces. -/
def norm (s : Str) : Str := collapse (stripMarks (trim (s.map lowerChar)))


/-- Python regex word character (backslash-w) on the modelled alphabet:
ASCII alphanumerics and underscore (every letter surviving normalization on
the modelled alphabet is ASCII). -/
def isW (c : Char) : Bool := c.isAlphanum || c == '_'

/-- Word-boundary test on the text that follows a match: the regex
backslash-b after a word character holds at the end of the text or before a
non-word character. -/
def bdOk : Str → Bool
  | [] => true
  | c :: _ => !(isW c)

/-- Python substring containment (the in operator on str). -/
def substrB (p : Str) : Str → Bool
  | [] => p.isEmpty
  | c :: r => p.isPrefixOf (c :: r) || substrB p r

/-- A piece of a regex alternative: a literal chunk, or a greedy run of zero
or more whitespace characters (backslash-s-star).  In every pattern of the
source a whitespace run is followed by a literal starting with a non-space
character, so greedy matching needs no backtracking. -/
inductive Seg
  | lit (w : Str)
  | ws
deriving DecidableEq

/-- One alternative of an alternation group. -/
abbrev Alt := List Seg

/-- Match the pieces of one alternative at the start of the text, returning
the remaining suffix. -/
def segsMatch : List Seg → Str → Option Str
  | [], s => some s
  | Seg.lit w :: k, s => if w.isPrefixOf s then segsMatch k (s.drop w.length) else none
  | Seg.ws :: k, s => segsMatch k (s.dropWhile isSp)

/-- Match a word-bounded alternation group at the start of the text: the
first alternative that matches and is followed by a word boundary wins, as
in Python alternation with a trailing backslash-b. -/
def groupMatch : List Alt → Str → Option Str
  | [], _ => none
  | a :: g, s =>
    match segsMatch a s with
    | some r => if bdOk r then some r else groupMatch g s
    | none => groupMatch g s

/-- Scan the text for a word-bounded occurrence of the group; the flag says
whether the character just before the current position is a word character
(no boundary there if so).  On a match, the continuation consumes the
remaining suffix. -/
def seqSearchOne (g : List Alt) (cont : Str → Bool) : Bool → Str → Bool
  | _, [] => false
  | prevW, c :: r =>
    (!prevW && ((groupMatch g (c :: r)).elim false cont)) ||
      seqSearchOne g cont (isW c) r

/-- re.search for a pattern of word-bounded alternation groups separated by
greedy dot-star gaps: each group must occur word-bounded at or after the end
of the previous group's match. -/
def seqSearch : List (List Alt) → Bool → Str → Bool
  | [], _, _ => true
  | g :: gs, prevW, s => seqSearchOne g (seqSearch gs true) prevW s

/-- Entry point of the pattern search (position zero has no preceding word
character). -/
def reSearch (gs : List (List Alt)) (t : Str) : Bool := seqSearch gs false t

/-- First alternative of the list that is a literal prefix of the text
(Python alternation tries alternatives left to right). -/
def findPref (alts : List Str) (s : Str) : Option Str :=
  alts.find? (fun w => w.isPrefixOf s)

/-- re.sub of an alternation of literal phrases by the empty string: scan
left to right, at each position delete the first matching alternative, else
keep the character.  The counter skips the remaining characters of a deleted
match. -/
def subAllAux (alts : List Str) : Nat → Str → Str
  | _ + 1, [] => []
  | k + 1, _ :: r => subAllAux alts k r
  | 0, [] => []
  | 0, c :: r =>
    match findPref alts (c :: r) with
    | some w => subAllAux alts (w.length - 1) r
    | none => c :: subAllAux alts 0 r

/-- re.sub of an alternation of literal phrases by the empty string. -/
def subAll (alts : List Str) (s : Str) : Str := subAllAux alts 0 s

/-- Leftmost word-bounded occurrence of a literal word: returns the suffix
that follows the occurrence.  The flag carries the word-ness of the
preceding character, as in seqSearchOne. -/
def findWord (w : Str) : Bool → Str → Option Str
  | _, [] => none
  | prevW, c :: r =>
    if !prevW && w.isPrefixOf (c :: r) && bdOk ((c :: r).drop w.length)
    then some ((c :: r).drop w.length)
    else findWord w (isW c) r

/-- Numeric value of a decimal digit character. -/
def digitVal (c : Char) : Nat := c.toNat - 48

/-- The optional explicit-year suffix of the month pattern: one or more
whitespace characters followed by four digits (whatever follows the four
digits is irrelevant, the pattern ends there). -/
def yearSuffix : Str → Option Nat
  | c :: r =>
    if isSp c then
      match r.dropWhile isSp with
      | a :: b :: c2 :: d :: _ =>
        if a.isDigit && b.isDigit && c2.isDigit && d.isDigit then
          some (digitVal a * 1000 + digitVal b * 100 + digitVal c2 * 10 + digitVal d)
        else none
      | _ => none
    else none
  | [] => none

/-- Greedy maximal run of decimal digits with its value (accumulator form). -/
def digitsAux : Str → Nat → Nat × Str
  | c :: r, acc => if c.isDigit then digitsAux r (acc * 10 + digitVal c) else (acc, c :: r)
  | [], acc => (acc, [])

/-- One or more whitespace characters, greedily; returns the suffix. -/
def spaces1 : Str → Option Str
  | c :: r => if isSp c then some (r.dropWhile isSp) else none
  | [] => none

/-- Attempt the body of the "ultimos N dias" pattern at the current
position: optional plural s, one or more spaces, one or more digits, one or
more spaces, the word dias, then a word boundary. -/
def ultimosAt (s : Str) : Option Nat :=
  if (str "ultimo").isPrefixOf s then
    let s1 := s.drop 6
    let s2 := match s1 with
      | 's' :: r => r
      | _ => s1
    match spaces1 s2 with
    | none => none
    | some s3 =>
      match s3 with
      | c :: _ =>
        if c.isDigit then
          let (n, s4) := digitsAux s3 0
          match spaces1 s4 with
          | none => none
          | some s5 =>
            if (str "dias").isPrefixOf s5 && bdOk (s5.drop 4) then some n else none
      else none
      | [] => none
  else none

/-- Leftmost match of the "ultimos N dias" pattern, scanning with the
word-ness flag of the preceding character. -/
def ultimosScan : Bool → Str → Option Nat
  | _, [] => none
  | prevW, c :: r =>
    match (if !prevW then ultimosAt (c :: r) else none) with
    | some n => some n
    | none => ultimosScan (isW c) r

/-- A literal ISO-shaped date chunk: four digits, hyphen, two digits,
hyphen, two digits; returns the ten matched characters and the suffix. -/
def isoChunk (s : Str) : Option (Str × Str) :=
  match s with
  | a :: b :: c :: d :: h1 :: e :: f :: h2 :: g :: i :: r =>
    if a.isDigit && b.isDigit && c.isDigit && d.isDigit && h1 == '-' &&
       e.isDigit && f.isDigit && h2 == '-' && g.isDigit && i.isDigit then
      some ([a, b, c, d, h1, e, f, h2, g, i], r)
    else none
  | _ => none

/-- Attempt the body of the "desde D hasta D" pattern at the current
position. -/
def desdeAt (s : Str) : Option (Str × Str) :=
  if (str "desde").isPrefixOf s then
    match spaces1 (s.drop 5) with
    | none => none
    | some s1 =>
      match isoChunk s1 with
      | none => none
      | some (d1, s2) =>
        match spaces1 s2 with
        | none => none
        | some s3 =>
          if (str "hasta").isPrefixOf s3 then
            match spaces1 (s3.drop 5) with
            | none => none
            | some s4 =>
              match isoChunk s4 with
              | none => none
              | some (d2, s5) => if bdOk s5 then some (d1, d2) else none
          else none
  else none

/-- Leftmost match of the "desde D hasta D" pattern. -/
def desdeScan : Bool → Str → Option (Str × Str)
  | _, [] => none
  | prevW, c :: r =>
    match (if !prevW then desdeAt (c :: r) else none) with
    | some p => some p
    | none => desdeScan (isW c) r



/-! ### Calendar arithmetic (CPython datetime.date) -/

/-- Gregorian leap-year test (Python calendar.isleap / date internals). -/
def leap (y : Nat) : Bool := y % 4 == 0 && (y % 100 != 0 || y % 400 == 0)

/-- Days in a month of a non-leap year (CPython _DAYS_IN_MONTH). -/
def mdays : Nat → Nat
  | 1 => 31 | 2 => 28 | 3 => 31 | 4 => 30 | 5 => 31 | 6 => 30
  | 7 => 31 | 8 => 31 | 9 => 30 | 10 => 31 | 11 => 30 | 12 => 31
  | _ => 0

/-- Days in a month of a given year. -/
def dim (y m : Nat) : Nat := if m == 2 && leap y then 29 else mdays m

/-- Days before a month in a non-leap year (CPython _DAYS_BEFORE_MONTH). -/
def dbm : Nat → Nat
  | 1 => 0 | 2 => 31 | 3 => 59 | 4 => 90 | 5 => 120 | 6 => 151
  | 7 => 181 | 8 => 212 | 9 => 243 | 10 => 273 | 11 => 304 | 12 => 334
  | _ => 0

/-- Days before a month in a given year (CPython _days_before_month). -/
def dbmY (y m : Nat) : Nat := dbm m + (if 2 < m && leap y then 1 else 0)

/-- Days before January 1 of a year (CPython _days_before_year). -/
def dby (y : Nat) : Nat :=
  let p := y - 1
  365 * p + p / 4 - p / 100 + p / 400

/-- A Python datetime.date value (the time-of-day part of datetime never
matters to the code under study). -/
structure Ymd where
  y : Nat
  m : Nat
  d : Nat
deriving DecidableEq

/-- Validity of a date triple: Python date() accepts exactly these. -/
def validYmd (t : Ymd) : Prop :=
  1 ≤ t.y ∧ t.y ≤ 9999 ∧ 1 ≤ t.m ∧ t.m ≤ 12 ∧ 1 ≤ t.d ∧ t.d ≤ dim t.y t.m

instance (t : Ymd) : Decidable (validYmd t) := by unfold validYmd; infer_instance

/-- Python date.toordinal: day number with 0001-01-01 as day one. -/
def toOrd (t : Ymd) : Nat := dby t.y + dbmY t.y t.m + t.d

/-- date.max.toordinal(), the ordinal of 9999-12-31. -/
def maxOrd : Nat := 3652059

/-- Month and day from the day-of-year remainder and the leap flag: the
month-probe step of CPython _ord2ymd ((n + 50) >> 5 guess, then adjust). -/
def probeMD (lp : Bool) (r1 : Nat) : Nat × Nat :=
  let mg := (r1 + 50) / 32
  let pre := dbm mg + (if 2 < mg && lp then 1 else 0)
  if r1 < pre then
    let pre2 := pre - (mdays (mg - 1) + (if mg - 1 == 2 && lp then 1 else 0))
    (mg - 1, r1 - pre2 + 1)
  else (mg, r1 - pre + 1)

/-- Last level of CPython _ord2ymd: either the last day of a leap year
(n1 = 4 or n100 = 4), or the month probe. -/
def ordLevel1 (n400 n100 n4 n1 r1 : Nat) : Ymd :=
  let year := 400 * n400 + 100 * n100 + 4 * n4 + n1 + 1
  if n1 == 4 || n100 == 4 then ⟨year - 1, 12, 31⟩
  else
    let lp := n1 == 3 && (n4 != 24 || n100 == 3)
    let md := probeMD lp r1
    ⟨year, md.1, md.2⟩

/-- Four-year level of CPython _ord2ymd. -/
def ordLevel4 (n400 n100 n4 r4 : Nat) : Ymd :=
  ordLevel1 n400 n100 n4 (r4 / 365) (r4 % 365)

/-- Century level of CPython _ord2ymd. -/
def ordLevel100 (n400 n100 r100 : Nat) : Ymd :=
  ordLevel4 n400 n100 (r100 / 1461) (r100 % 1461)

/-- Era level of CPython _ord2ymd. -/
def ordLevel400 (n400 r400 : Nat) : Ymd :=
  ordLevel100 n400 (r400 / 36524) (r400 % 36524)

/-- Python date.fromordinal (CPython _ord2ymd); only ever applied to
ordinals in the valid range by the guarded operations below. -/
def fromOrd (n : Nat) : Ymd :=
  ordLevel400 ((n - 1) / 146097) ((n - 1) % 146097)

/-- The error surface of the Python functions under study. -/
inductive PyErr
  | value
  | overflow
deriving DecidableEq

instance {ε α : Type} [DecidableEq ε] [DecidableEq α] : DecidableEq (Except ε α) :=
  fun a b =>
    match a, b with
    | Except.ok x, Except.ok y =>
      if h : x = y then isTrue (by rw [h]) else isFalse (by simp [h])
    | Except.error x, Except.error y =>
      if h : x = y then isTrue (by rw [h]) else isFalse (by simp [h])
    | Except.ok _, Except.error _ => isFalse (by simp)
    | Except.error _, Except.ok _ => isFalse (by simp)

/-- Python date(y, m, d): ValueError outside the supported ranges. -/
def mkDate (y m d : Nat) : Except PyErr Ymd :=
  if 1 ≤ y ∧ y ≤ 9999 then
    if 1 ≤ m ∧ m ≤ 12 then
      if 1 ≤ d ∧ d ≤ dim y m then Except.ok ⟨y, m, d⟩
      else Except.error PyErr.value
    else Except.error PyErr.value
  else Except.error PyErr.value

/-- Python date (or datetime) minus timedelta(days = n): OverflowError when
the result leaves the supported range. -/
def subDays (t : Ymd) (n : Nat) : Except PyErr Ymd :=
  let o := toOrd t
  if n + 1 ≤ o ∧ o - n ≤ maxOrd then Except.ok (fromOrd (o - n))
  else Except.error PyErr.overflow

/-- Python date.weekday(): 0 is Monday; ordinal 1 (0001-01-01) is a Monday. -/
def wday (t : Ymd) : Nat := (toOrd t + 6) % 7

/-- A decimal digit character. -/
def digitChar (n : Nat) : Char := Char.ofNat (48 + n)

/-- Two-digit zero-padded decimal. -/
def pad2 (n : Nat) : Str := [digitChar (n / 10 % 10), digitChar (n % 10)]

/-- Four-digit zero-padded decimal. -/
def pad4 (n : Nat) : Str :=
  [digitChar (n / 1000 % 10), digitChar (n / 100 % 10), digitChar (n / 10 % 10),
   digitChar (n % 10)]

/-- Python date.isoformat(). -/
def isoYmd (t : Ymd) : Str := pad4 t.y ++ '-' :: pad2 t.m ++ '-' :: pad2 t.d



/-! ### The program: phrase lists, intents, slot extraction -/

/-- The greeting phrase list of the source (GREETINGS). -/
def GREETINGS : List Str :=
  [str "hola", str "buenas", str "buenos dias", str "buen dia",
   str "buenas tardes", str "buenas noches", str "que puedes hacer",
   str "ayuda", str "help", str "/start", str "/help"]

/-- The farewell phrase list of the source (FAREWELLS). -/
def FAREWELLS : List Str :=
  [str "gracias", str "nos vemos", str "bye", str "adios", str "hasta luego",
   str "hasta pronto", str "hasta manana", str "hasta mañana", str "chao",
   str "me despido"]

/-- The technician roster of the source (TECHS), in scan order. -/
def TECHS : List Str :=
  [str "andres", str "esteban", str "juan", str "sebastian", str "mateo",
   str "jose", str "pablo"]

/-- The month-name table of the source (MONTHS), in insertion order; both
spellings of September map to month 9. -/
def MONTHS : List (Str × Nat) :=
  [(str "enero", 1), (str "febrero", 2), (str "marzo", 3), (str "abril", 4),
   (str "mayo", 5), (str "junio", 6), (str "julio", 7), (str "agosto", 8),
   (str "septiembre", 9), (str "setiembre", 9), (str "octubre", 10),
   (str "noviembre", 11), (str "diciembre", 12)]

/-- is_greeting of the source: any greeting phrase occurs as a substring of
the normalized text. -/
def is_greeting (text : Str) : Bool := GREETINGS.any (fun g => substrB g (norm text))

/-- is_farewell of the source. -/
def is_farewell (text : Str) : Bool := FAREWELLS.any (fun g => substrB g (norm text))

/-- The Intent enumeration (the string labels of the source). -/
inductive Intent
  | HELP | MTTR | MTBF | PM_COMPLIANCE | BACKLOG | COSTS | TOP_DOWNTIME
  | STATUS_COUNTS | TECH_BY_PERSON
deriving DecidableEq

/-- A single word-bounded alternation group made of literal words. -/
def wordGroup (ws : List String) : List Alt := ws.map (fun w => [Seg.lit (str w)])

/-- The order-noun pattern of the source: ordenes, órdenes or ots as a
whole word (the accented spelling can never match normalized text but is
kept from the source). -/
def orderNounPat : List (List Alt) := [wordGroup ["ordenes", "órdenes", "ots"]]

/-- Pattern for "este mes". -/
def esteMesPat : List (List Alt) := [wordGroup ["este mes"]]

/-- Pattern for "mes pasado". -/
def mesPasadoPat : List (List Alt) := [wordGroup ["mes pasado"]]

/-- Pattern for "esta semana". -/
def estaSemanaPat : List (List Alt) := [wordGroup ["esta semana"]]

/-- Pattern for "semana pasada". -/
def semanaPasadaPat : List (List Alt) := [wordGroup ["semana pasada"]]

/-- Pattern for the standalone token pm. -/
def pmPat : List (List Alt) := [wordGroup ["pm"]]

/-- Pattern for the standalone token cm. -/
def cmPat : List (List Alt) := [wordGroup ["cm"]]

/-- Word-bounded pattern for one technician name. -/
def techPat (w : Str) : List (List Alt) := [[[Seg.lit w]]]

/-- The quantity words cuant[ao]s? expanded (greedy option order). -/
def cuantGroup : List Alt := wordGroup ["cuantas", "cuanta", "cuantos", "cuanto"]

/-- The filler alternation of the source (FILLER), expanded to literal
phrases in Python alternation order (muestr(a|ame) tries the short branch
first, so muestrame is only reachable through muestra). -/
def fillerAlts : List Str :=
  [str "dime", str "muestra", str "muestrame", str "podrias", str "puedes",
   str "por favor", str "como esta", str "cual es", str "indica",
   str "reporta", str "quiero saber", str "me dices"]

/-- The intent pattern table of the source (INTENTS), in insertion order.
Character classes and optional suffixes are expanded into alternation
lists in greedy order; backslash-s-star appears inside the PM-compliance
alternatives. -/
def INTENTS : List (List (List Alt) × Intent) :=
  [ ([wordGroup ["mttr", "tiempo medio de reparacion"]], Intent.MTTR),
    ([wordGroup ["mtbf", "tiempo medio entre fallas"]], Intent.MTBF),
    ([[ [Seg.lit (str "cumplimiento"), Seg.ws, Seg.lit (str "pm")],
        [Seg.lit (str "pm compliance")],
        [Seg.lit (str "preventivos"), Seg.ws, Seg.lit (str "cumplimiento")],
        [Seg.lit (str "preventivo"), Seg.ws, Seg.lit (str "cumplimiento")],
        [Seg.lit (str "preventivas"), Seg.ws, Seg.lit (str "cumplimiento")],
        [Seg.lit (str "preventiva"), Seg.ws, Seg.lit (str "cumplimiento")],
        [Seg.lit (str "cumplimiento"), Seg.ws, Seg.lit (str "de"), Seg.ws,
         Seg.lit (str "pm")] ]], Intent.PM_COMPLIANCE),
    ([wordGroup ["backlog", "atraso"]], Intent.BACKLOG),
    ([wordGroup ["costos", "costo", "gastos", "gasto"]], Intent.COSTS),
    ([wordGroup ["paradas", "downtime", "tiempo muerto", "top downtime"]],
      Intent.TOP_DOWNTIME),
    ([wordGroup ["estados", "estado", "estado", "conteos", "conteo"]],
      Intent.STATUS_COUNTS),
    ([ cuantGroup, wordGroup ["ordenes", "órdenes", "ots"],
       wordGroup ["tiene"] ], Intent.TECH_BY_PERSON),
    ([ cuantGroup, wordGroup ["ordenes", "órdenes", "ots"],
       wordGroup ["abierta", "abierts", "abiert", "cerrada", "cerrads",
                  "cerrad", "progreso", "en progreso", "totales", "totale"],
       wordGroup ["hay"] ], Intent.STATUS_COUNTS) ]

/-- detect_intent of the source, on already-normalized text: greeting check,
then the disambiguation override (order noun and no technician mention),
then the intent table on filler-stripped text, then the technician
fallback, else HELP.  (The source also computes an unused
mentions-status-word flag, dead code omitted here.) -/
def detectCore (t : Str) : Intent :=
  if GREETINGS.any (fun g => substrB g t) then Intent.HELP
  else if reSearch orderNounPat t && !(TECHS.any (fun w => substrB w t)) then
    Intent.STATUS_COUNTS
  else
    let t2 := subAll fillerAlts t
    match INTENTS.find? (fun p => reSearch p.1 t2) with
    | some p => p.2
    | none =>
      if (TECHS.any (fun w => substrB w t)) &&
         (substrB (str "abiert") t || substrB (str "cerrad") t ||
          substrB (str "progreso") t) then Intent.TECH_BY_PERSON
      else Intent.HELP

/-- detect_intent of the source. -/
def detect_intent (text : Str) : Intent := detectCore (norm text)

/-- The month scan of the source month-range helper: iterate the MONTHS
table in insertion order and search each name word-bounded in the text; the
first name with an occurrence wins (its leftmost occurrence), together with
the optional four-digit year following it. -/
def monthScan (t : Str) : Option (Nat × Option Nat) :=
  MONTHS.findSome? (fun p => (findWord p.1 false t).map (fun rest => (p.2, yearSuffix rest)))

/-- The month-range helper of the source (leading-underscore name there):
resolve a named month, with explicit year or the current year of the
reference instant, to its first and last calendar day; the last day is the
first day of the next month minus one day, December rolling into January. -/
def monthRangeFromName (ref : Ymd) (t : Str) : Except PyErr (Option (Str × Str)) :=
  match monthScan t with
  | none => Except.ok none
  | some (m, yo) =>
    let y := yo.getD ref.y
    do
      let start ← mkDate y m 1
      let stop ←
        if m == 12 then do
          let a ← mkDate (y + 1) 1 1
          subDays a 1
        else do
          let a ← mkDate y (m + 1) 1
          subDays a 1
      return some (isoYmd start, isoYmd stop)

/-- The date cascade of the source (leading-underscore name there): named
month, "este mes", "mes pasado", "esta semana", "semana pasada",
"ultimos N dias", explicit "desde D hasta D" passed verbatim, else both
fields unset. -/
def applyDatePattern (ref : Ymd) (t : Str) : Except PyErr (Option Str × Option Str) :=
  match monthRangeFromName ref t with
  | Except.error e => Except.error e
  | Except.ok (some (a, b)) => Except.ok (some a, some b)
  | Except.ok none =>
    if reSearch esteMesPat t then
      Except.ok (some (isoYmd ⟨ref.y, ref.m, 1⟩), some (isoYmd ref))
    else if reSearch mesPasadoPat t then do
      let lastPrev ← subDays ⟨ref.y, ref.m, 1⟩ 1
      return (some (isoYmd ⟨lastPrev.y, lastPrev.m, 1⟩), some (isoYmd lastPrev))
    else if reSearch estaSemanaPat t then do
      let s ← subDays ref (wday ref)
      return (some (isoYmd s), some (isoYmd ref))
    else if reSearch semanaPasadaPat t then do
      let startThis ← subDays ref (wday ref)
      let startPrev ← subDays startThis 7
      let endPrev ← subDays startThis 1
      return (some (isoYmd startPrev), some (isoYmd endPrev))
    else
      match ultimosScan false t with
      | some n =>
        if n ≤ 999999999 then do
          let s ← subDays ref n
          return (some (isoYmd s), some (isoYmd ref))
        else Except.error PyErr.overflow
      | none =>
        match desdeScan false t with
        | some (a, b) => Except.ok (some a, some b)
        | none => Except.ok (none, none)

/-- The slot record of the source (otype is the field called type there;
site and area are declared but never set by the extractor). -/
structure Slots where
  site : Option Str := none
  area : Option Str := none
  otype : Option Str := none
  status : Option Str := none
  date_from : Option Str := none
  date_to : Option Str := none
  technician : Option Str := none
deriving DecidableEq

/-- Python str.capitalize on a roster name: first letter upper-cased (the
rest of the roster names are already lower-case ASCII). -/
def upperChar (c : Char) : Char :=
  ((lowerTable.find? (fun p => p.2 == c)).map Prod.fst).getD c

/-- Python str.capitalize. -/
def capFirst : Str → Str
  | [] => []
  | c :: r => upperChar c :: r.map lowerChar

/-- extract_slots of the source: order type (pm then cm, the later check
overwrites), status (first match of abiert / cerrad / progreso), technician
(gated on an order noun or an open/closed status word, first whole-word
roster match, capitalized), then the date cascade.  The known-sites and
known-areas parameters of the source are never used by it and are omitted. -/
def extract_slots (ref : Ymd) (text : Str) : Except PyErr Slots :=
  let t := norm text
  let ty0 : Option Str := if reSearch pmPat t then some (str "PM") else none
  let ty : Option Str := if reSearch cmPat t then some (str "CM") else ty0
  let st : Option Str :=
    if substrB (str "abiert") t then some (str "Abierta")
    else if substrB (str "cerrad") t then some (str "Cerrada")
    else if substrB (str "progreso") t then some (str "En Progreso")
    else none
  let tech : Option Str :=
    if reSearch orderNounPat t || (substrB (str "abiert") t || substrB (str "cerrad") t)
    then (TECHS.find? (fun w => reSearch (techPat w) t)).map capFirst
    else none
  match applyDatePattern ref t with
  | Except.error e => Except.error e
  | Except.ok (df, dt) =>
    Except.ok { otype := ty, status := st, date_from := df, date_to := dt,
                technician := tech }



/-- Successor of a calendar date (proof device for ordinal surjectivity). -/
def nextDate (t : Ymd) : Ymd :=
  if t.d < dim t.y t.m then ⟨t.y, t.m, t.d + 1⟩
  else if t.m < 12 then ⟨t.y, t.m + 1, 1⟩
  else ⟨t.y + 1, 1, 1⟩

/-! ### Concrete witness data -/

/-- C7 witness: all three keywords co-occur and abiert prevails. -/
def slotsC7 : Slots := { status := some (str "Abierta") }

/-- C10 witness: both tokens present, CM wins. -/
def slotsC10 : Slots := { otype := some (str "CM") }

/-- C6 witness: the spec's own example, with accents in the input. -/
def slotsC6 : Slots := { technician := some (str "Sebastian") }

def slotsC9 : Slots := {}


/-- The condition under which the named-month rule of the date cascade makes
Python date() raise: an explicit year 0000 with any month, or December 9999
(whose range computation needs year 10000). -/
def MonthBad (_ref : Ymd) (u : Str) : Bool :=
  match monthScan u with
  | some (m, some y) => y == 0 || (m == 12 && y == 9999)
  | _ => false

/-- The condition under which the "ultimos N dias" rule raises: N beyond the
timedelta limit, or N reaching before the minimum representable date. -/
def UltimosBad (ref : Ymd) (u : Str) : Bool :=
  match ultimosScan false u with
  | some n => decide (999999999 < n) || decide (toOrd ref ≤ n)
  | none => false

/-- A sane reference instant: a valid date whose year keeps the
reference-year month rule and the previous-month rule in range (any value
datetime.utcnow can realistically produce qualifies). -/
def ValidRef (r : Ymd) : Prop := validYmd r ∧ 2 ≤ r.y ∧ r.y ≤ 9998


/-- Lexicographic order test on ISO date strings; on equal-length
zero-padded date strings this is exactly chronological order. -/
def isoStrLe : Str → Str → Bool
  | [], _ => true
  | _ :: _, [] => false
  | a :: as, b :: bs => if a == b then isoStrLe as bs else decide (a < b)

/-- C2 counterexample data: the verbatim desde-hasta rule emits this
unordered date pair. -/
def slotsC2 : Slots :=
  { date_from := some (str "2025-01-02"), date_to := some (str "2025-01-01") }

/-- C2 witness data: the January 2024 month window. -/
def slotsC2W : Slots :=
  { date_from := some (str "2024-01-01"), date_to := some (str "2024-01-31") }

/-- A literal chunk is sound for padding lemmas: nonempty with a non-space
last character. -/
def litOk (w : Str) : Bool :=
  !w.isEmpty && (match w.getLast? with | some c => !(isSp c) | none => false)

/-- A segment is sound for padding lemmas. -/
def segOk : Seg → Bool
  | Seg.lit w => litOk w
  | Seg.ws => true

/-- An alternative is sound: it starts with a literal whose head is a
non-space character, ends with a literal, and all its literals are sound. -/
def altOk (a : Alt) : Bool :=
  (match a with | Seg.lit (c :: _) :: _ => !(isSp c) | _ => false) &&
  (match a.getLast? with | some (Seg.lit _) => true | _ => false) &&
  a.all segOk

/-- A pattern is sound when all its alternatives are. -/
def patOk (gs : List (List Alt)) : Bool := gs.all (fun g => g.all altOk)

/-- A word is sound for padding lemmas: nonempty, non-space head, non-space
last character. -/
def wordOk (p : Str) : Bool :=
  !p.isEmpty &&
  (match p with | c :: _ => !(isSp c) | [] => false) &&
  (match p.getLast? with | some c => !(isSp c) | none => false)

/-- The characters on which some table of the char model is non-default:
lower-casing keys, NFD keys, combining marks, whitespace. -/
def SPECIALS : Str :=
  ['A','B','C','D','E','F','G','H','I','J','K','L','M','N','O','P','Q','R','S','T',
   'U','V','W','X','Y','Z','Á','É','Í','Ó','Ú','Ü','Ñ','á','é','í','ó','ú','ü','ñ',
   '̀','́','̃','̈',' ','\t','\n','\r','\u000b','\u000c']

/-- The padding-independent core of the normalised text: it depends on the
input only through its accent-stripped form. -/
def normCore (x : Str) : Str := (collapse (trim (stripMarks x))).map lowerChar

/-- Non-space head test. -/
def headNS (s : Str) : Bool := match s with | c :: _ => !(isSp c) | [] => false

/-- Non-space last-character test. -/
def lastNS (s : Str) : Bool :=
  match s.getLast? with | some c => !(isSp c) | none => false


/-! ### Theorems -/

/-- Inversion of a successful extract_slots call: each field equals its
defining expression over the normalized text, and the date fields come from
the date cascade. -/
theorem extract_slots_ok_fields (ref : Ymd) (text : Str) (s : Slots)
    (h : extract_slots ref text = Except.ok s) :
    (s.otype = if reSearch cmPat (norm text) then some (str "CM")
               else if reSearch pmPat (norm text) then some (str "PM") else none) ∧
    (s.status = if substrB (str "abiert") (norm text) then some (str "Abierta")
                else if substrB (str "cerrad") (norm text) then some (str "Cerrada")
                else if substrB (str "progreso") (norm text) then some (str "En Progreso")
                else none) ∧
    (s.technician =
      if reSearch orderNounPat (norm text) ||
         (substrB (str "abiert") (norm text) || substrB (str "cerrad") (norm text))
      then (TECHS.find? (fun w => reSearch (techPat w) (norm text))).map capFirst
      else none) ∧
    (∃ df dt, applyDatePattern ref (norm text) = Except.ok (df, dt) ∧
       s.date_from = df ∧ s.date_to = dt) := by
  simp only [extract_slots] at h
  cases hd : applyDatePattern ref (norm text) with
  | error e => rw [hd] at h; exact absurd h (by simp)
  | ok p =>
    obtain ⟨df, dt⟩ := p
    rw [hd] at h
    simp only [Except.ok.injEq] at h
    subst h
    refine ⟨rfl, rfl, rfl, df, dt, rfl, rfl, rfl⟩


/-- C3: for every input whose normalized form contains an order noun
(ordenes, órdenes or ots as a whole word), contains no greeting phrase and
mentions no technician name (substring test, as in the source),
detect_intent returns STATUS_COUNTS regardless of any other pattern. -/
theorem C3_disambiguation_override (text : Str)
    (h1 : reSearch orderNounPat (norm text) = true)
    (h2 : TECHS.any (fun w => substrB w (norm text)) = false)
    (h3 : GREETINGS.any (fun g => substrB g (norm text)) = false) :
    detect_intent text = Intent.STATUS_COUNTS := by
  unfold detect_intent detectCore
  rw [h3, h1, h2]
  simp

/-- C3 witness: a technician-quantity question with no technician name is
resolved by the override (the TECH_BY_PERSON pattern of the intent table
matches this text, yet STATUS_COUNTS wins). -/
theorem C3_witness :
    detect_intent (str "cuantas ordenes tiene") = Intent.STATUS_COUNTS ∧
    reSearch [cuantGroup, wordGroup ["ordenes", "órdenes", "ots"], wordGroup ["tiene"]]
      (subAll fillerAlts (norm (str "cuantas ordenes tiene"))) = true :=
  ⟨C3_disambiguation_override (str "cuantas ordenes tiene")
     (by decide) (by decide) (by decide), by decide⟩

/-- C7: the status slot is set by a first-match-wins cascade: abiert wins
over cerrad and progreso, cerrad over progreso, and status stays unset when
none of the keywords occurs; hence at most one status value is ever set. -/
theorem C7_status_exclusive (text : Str) (ref : Ymd) (s : Slots)
    (h : extract_slots ref text = Except.ok s) :
    (substrB (str "abiert") (norm text) = true → s.status = some (str "Abierta")) ∧
    (substrB (str "abiert") (norm text) = false → substrB (str "cerrad") (norm text) = true →
      s.status = some (str "Cerrada")) ∧
    (substrB (str "abiert") (norm text) = false → substrB (str "cerrad") (norm text) = false →
      substrB (str "progreso") (norm text) = true → s.status = some (str "En Progreso")) ∧
    (substrB (str "abiert") (norm text) = false → substrB (str "cerrad") (norm text) = false →
      substrB (str "progreso") (norm text) = false → s.status = none) := by
  have h2 := (extract_slots_ok_fields ref text s h).2.1
  refine ⟨fun ha => ?_, fun ha hc => ?_, fun ha hc hp => ?_, fun ha hc hp => ?_⟩
  · rw [h2]; simp [ha]
  · rw [h2]; simp [ha, hc]
  · rw [h2]; simp [ha, hc, hp]
  · rw [h2]; simp [ha, hc, hp]


theorem C7_witness :
    extract_slots ⟨2025, 6, 15⟩ (str "abiertas cerradas en progreso") = Except.ok slotsC7 ∧
    slotsC7.status = some (str "Abierta") :=
  ⟨by decide,
   (C7_status_exclusive (str "abiertas cerradas en progreso") ⟨2025, 6, 15⟩ slotsC7
      (by decide)).1 (by decide)⟩

/-- C10: the order-type slot: the cm check runs after the pm check and
overwrites it, so cm wins when both standalone tokens occur; pm alone gives
PM, cm alone gives CM, neither leaves the field unset. -/
theorem C10_type_conflict (text : Str) (ref : Ymd) (s : Slots)
    (h : extract_slots ref text = Except.ok s) :
    (reSearch pmPat (norm text) = true → reSearch cmPat (norm text) = true →
      s.otype = some (str "CM")) ∧
    (reSearch pmPat (norm text) = true → reSearch cmPat (norm text) = false →
      s.otype = some (str "PM")) ∧
    (reSearch pmPat (norm text) = false → reSearch cmPat (norm text) = true →
      s.otype = some (str "CM")) ∧
    (reSearch pmPat (norm text) = false → reSearch cmPat (norm text) = false →
      s.otype = none) := by
  have h1 := (extract_slots_ok_fields ref text s h).1
  refine ⟨fun hp hc => ?_, fun hp hc => ?_, fun hp hc => ?_, fun hp hc => ?_⟩ <;>
    rw [h1] <;> simp [hp, hc]


theorem C10_witness :
    extract_slots ⟨2025, 6, 15⟩ (str "ordenes pm cm") = Except.ok slotsC10 ∧
    slotsC10.otype = some (str "CM") :=
  ⟨by decide,
   (C10_type_conflict (str "ordenes pm cm") ⟨2025, 6, 15⟩ slotsC10 (by decide)).1
     (by decide) (by decide)⟩

/-- C6: the technician slot is set only under the gate (order noun as a
whole word, or an abiert / cerrad substring); when set it is the first
roster name (in roster order) matching as a whole word, capitalized — hence
always a capitalized roster member. -/
theorem C6_technician_capture (text : Str) (ref : Ymd) (s : Slots)
    (h : extract_slots ref text = Except.ok s) :
    (s.technician =
      if reSearch orderNounPat (norm text) ||
         (substrB (str "abiert") (norm text) || substrB (str "cerrad") (norm text))
      then (TECHS.find? (fun w => reSearch (techPat w) (norm text))).map capFirst
      else none) ∧
    (∀ v, s.technician = some v → ∃ w, w ∈ TECHS ∧ v = capFirst w) := by
  have h3 := (extract_slots_ok_fields ref text s h).2.2.1
  refine ⟨h3, fun v hv => ?_⟩
  rw [h3] at hv
  by_cases hg : (reSearch orderNounPat (norm text) ||
      (substrB (str "abiert") (norm text) || substrB (str "cerrad") (norm text))) = true
  · rw [if_pos hg] at hv
    cases hf : TECHS.find? (fun w => reSearch (techPat w) (norm text)) with
    | none => rw [hf] at hv; simp at hv
    | some w =>
      rw [hf] at hv
      simp only [Option.map_some'] at hv
      exact ⟨w, List.mem_of_find?_eq_some hf, (Option.some.inj hv).symm⟩
  · rw [if_neg hg] at hv
    simp at hv


theorem C6_witness :
    extract_slots ⟨2025, 6, 15⟩ (str "cuántas órdenes tiene sebastian") = Except.ok slotsC6 ∧
    slotsC6.technician = some (str "Sebastian") ∧
    (∃ w, w ∈ TECHS ∧ str "Sebastian" = capFirst w) := by
  refine ⟨by decide, by decide, ?_⟩
  exact (C6_technician_capture (str "cuántas órdenes tiene sebastian") ⟨2025, 6, 15⟩
    slotsC6 (by decide)).2 (str "Sebastian") (by decide)

/-- C9 (implicit): on "cuantas ordenes tiene josefina" the intent detector
returns TECH_BY_PERSON — the substring test sees jose inside josefina and
suppresses the STATUS_COUNTS override — while the slot extractor, which
requires a whole-word roster match, leaves the technician unset. -/
theorem C9_intent_slot_mismatch :
    detect_intent (str "cuantas ordenes tiene josefina") = Intent.TECH_BY_PERSON ∧
    extract_slots ⟨2025, 6, 15⟩ (str "cuantas ordenes tiene josefina") = Except.ok slotsC9 ∧
    slotsC9.technician = none ∧
    substrB (str "jose") (norm (str "cuantas ordenes tiene josefina")) = true ∧
    reSearch (techPat (str "jose")) (norm (str "cuantas ordenes tiene josefina")) = false :=
  ⟨by decide, by decide, by decide, by decide, by decide⟩



theorem dby_expand (y a c f g : Nat)
    (hp : y - 1 = 400 * a + 100 * c + 4 * f + g)
    (hc : c ≤ 3) (hf : f ≤ 24) (hg : g ≤ 3) :
    dby y = 146097 * a + 36524 * c + 1461 * f + 365 * g := by
  simp only [dby]
  omega

theorem leap_true_iff (y a c f g : Nat) (hy : 1 ≤ y)
    (hp : y - 1 = 400 * a + 100 * c + 4 * f + g)
    (hc : c ≤ 3) (hf : f ≤ 24) (hg : g ≤ 3) :
    leap y = true ↔ (g = 3 ∧ (f ≠ 24 ∨ c = 3)) := by
  unfold leap
  simp only [Bool.and_eq_true, Bool.or_eq_true, beq_iff_eq, bne_iff_ne, ne_eq,
    Nat.beq_eq_true_eq]
  omega


theorem doy_bound (y m d : Nat) (hm1 : 1 ≤ m) (hm2 : m ≤ 12) (hd1 : 1 ≤ d)
    (hd2 : d ≤ dim y m) :
    dbmY y m + d ≤ 365 + (if leap y then 1 else 0) := by
  by_cases hl : leap y <;>
    interval_cases m <;>
    simp [dbmY, dbm, dim, mdays, hl] at hd2 ⊢ <;> omega

theorem md_of_doy366 (y m d : Nat) (hl : leap y = true) (hm1 : 1 ≤ m) (hm2 : m ≤ 12)
    (hd1 : 1 ≤ d) (hd2 : d ≤ dim y m) (h : dbmY y m + d = 366) : m = 12 ∧ d = 31 := by
  interval_cases m <;> simp [dbmY, dbm, dim, mdays, hl] at hd2 h ⊢ <;> omega

theorem mdays_le31 (m : Nat) : mdays m ≤ 31 := by
  unfold mdays; split <;> omega

theorem probe_correct (lp : Bool) (m d : Nat) (hm1 : 1 ≤ m) (hm2 : m ≤ 12)
    (hd1 : 1 ≤ d) (hd2 : d ≤ (if m == 2 && lp then 29 else mdays m))
    (hb : dbm m + (if 2 < m && lp then 1 else 0) + d - 1 ≤ 364) :
    probeMD lp (dbm m + (if 2 < m && lp then 1 else 0) + d - 1) = (m, d) := by
  have key : ∀ (lp2 : Bool) (mm : Fin 13) (dd : Fin 32), 1 ≤ mm.val → 1 ≤ dd.val →
      dd.val ≤ (if mm.val == 2 && lp2 then 29 else mdays mm.val) →
      dbm mm.val + (if 2 < mm.val && lp2 then 1 else 0) + dd.val - 1 ≤ 364 →
      probeMD lp2 (dbm mm.val + (if 2 < mm.val && lp2 then 1 else 0) + dd.val - 1) =
        (mm.val, dd.val) := by decide
  have hm31 : mdays m ≤ 31 := mdays_le31 m
  have h32 : d < 32 := by split at hd2 <;> omega
  exact key lp ⟨m, by omega⟩ ⟨d, h32⟩ hm1 hd1 hd2 hb

theorem fromOrd_levels (n a c f g r1 : Nat)
    (h : n - 1 = 146097 * a + 36524 * c + 1461 * f + 365 * g + r1)
    (hc : c ≤ 3) (hf : f ≤ 24) (hg : g ≤ 3) (hr : r1 ≤ 364) :
    fromOrd n = ordLevel1 a c f g r1 := by
  unfold fromOrd ordLevel400 ordLevel100 ordLevel4
  have e1 : (n - 1) / 146097 = a := by omega
  have e2 : (n - 1) % 146097 = 36524 * c + 1461 * f + 365 * g + r1 := by omega
  rw [e1, e2]
  have e3 : (36524 * c + 1461 * f + 365 * g + r1) / 36524 = c := by omega
  have e4 : (36524 * c + 1461 * f + 365 * g + r1) % 36524 = 1461 * f + 365 * g + r1 := by
    omega
  rw [e3, e4]
  have e5 : (1461 * f + 365 * g + r1) / 1461 = f := by omega
  have e6 : (1461 * f + 365 * g + r1) % 1461 = 365 * g + r1 := by omega
  rw [e5, e6]
  have e7 : (365 * g + r1) / 365 = g := by omega
  have e8 : (365 * g + r1) % 365 = r1 := by omega
  rw [e7, e8]

theorem fromOrd_levels_spec1 (n a : Nat) (h : n - 1 = 146097 * a + 146096) :
    fromOrd n = ordLevel1 a 4 0 0 0 := by
  unfold fromOrd ordLevel400 ordLevel100 ordLevel4
  have e1 : (n - 1) / 146097 = a := by omega
  have e2 : (n - 1) % 146097 = 146096 := by omega
  rw [e1, e2]

theorem fromOrd_levels_spec2 (n a c f : Nat)
    (h : n - 1 = 146097 * a + 36524 * c + 1461 * f + 1460) (hc : c ≤ 3) (hf : f ≤ 23) :
    fromOrd n = ordLevel1 a c f 4 0 := by
  unfold fromOrd ordLevel400 ordLevel100 ordLevel4
  have e1 : (n - 1) / 146097 = a := by omega
  have e2 : (n - 1) % 146097 = 36524 * c + 1461 * f + 1460 := by omega
  rw [e1, e2]
  have e3 : (36524 * c + 1461 * f + 1460) / 36524 = c := by omega
  have e4 : (36524 * c + 1461 * f + 1460) % 36524 = 1461 * f + 1460 := by omega
  rw [e3, e4]
  have e5 : (1461 * f + 1460) / 1461 = f := by omega
  have e6 : (1461 * f + 1460) % 1461 = 1460 := by omega
  rw [e5, e6]


theorem ordLevel1_eval_spec1 (a : Nat) : ordLevel1 a 4 0 0 0 = ⟨400 * a + 400, 12, 31⟩ := by
  simp only [ordLevel1]
  norm_num

theorem ordLevel1_eval_spec2 (a c f : Nat) :
    ordLevel1 a c f 4 0 = ⟨400 * a + 100 * c + 4 * f + 4, 12, 31⟩ := by
  simp only [ordLevel1]
  norm_num

theorem ordLevel1_eval_normal (a c f g r1 : Nat) (hg : g ≤ 3) (hc : c ≤ 3) :
    ordLevel1 a c f g r1 =
      ⟨400 * a + 100 * c + 4 * f + g + 1,
        (probeMD (g == 3 && (f != 24 || c == 3)) r1).1,
        (probeMD (g == 3 && (f != 24 || c == 3)) r1).2⟩ := by
  simp only [ordLevel1]
  have hx : (g == 4 || c == 4) = false := by
    simp only [Bool.or_eq_false_iff, beq_eq_false_iff_ne, ne_eq]
    omega
  rw [hx]
  simp

/-- CPython date.fromordinal is a left inverse of date.toordinal on valid
dates. -/
theorem fromOrd_toOrd (t : Ymd) (h : validYmd t) : fromOrd (toOrd t) = t := by
  obtain ⟨y, m, d⟩ := t
  obtain ⟨hy1, hy2, hm1, hm2, hd1, hd2⟩ := h
  dsimp only at hy1 hy2 hm1 hm2 hd1 hd2
  obtain ⟨a, c, f, g, hp, hc, hf, hg⟩ :
      ∃ a c f g, y - 1 = 400 * a + 100 * c + 4 * f + g ∧ c ≤ 3 ∧ f ≤ 24 ∧ g ≤ 3 :=
    ⟨(y - 1) / 400, ((y - 1) % 400) / 100, (((y - 1) % 400) % 100) / 4,
      (((y - 1) % 400) % 100) % 4, by omega, by omega, by omega, by omega⟩
  have hdby := dby_expand y a c f g hp hc hf hg
  have hleap := leap_true_iff y a c f g hy1 hp hc hf hg
  have hdoy := doy_bound y m d hm1 hm2 hd1 hd2
  have htoOrd : toOrd ⟨y, m, d⟩ = dby y + dbmY y m + d := rfl
  by_cases hD : dbmY y m + d = 366
  · have hlp : leap y = true := by
      by_cases hb : leap y = true
      · exact hb
      · simp [hb] at hdoy; omega
    obtain ⟨hm12, hd31⟩ := md_of_doy366 y m d hlp hm1 hm2 hd1 hd2 hD
    have hgf := hleap.mp hlp
    obtain ⟨hg3, hfc⟩ := hgf
    by_cases hf24 : f = 24
    · have hc3 : c = 3 := by
        rcases hfc with hcase | hcase
        · exact absurd hf24 hcase
        · exact hcase
      have hlv := fromOrd_levels_spec1 (toOrd ⟨y, m, d⟩) a
        (by rw [htoOrd, hdby]; omega)
      rw [hlv, ordLevel1_eval_spec1]
      simp only [Ymd.mk.injEq]
      refine ⟨by omega, hm12.symm, hd31.symm⟩
    · have hlv := fromOrd_levels_spec2 (toOrd ⟨y, m, d⟩) a c f
        (by rw [htoOrd, hdby]; omega) hc (by omega)
      rw [hlv, ordLevel1_eval_spec2]
      simp only [Ymd.mk.injEq]
      refine ⟨by omega, hm12.symm, hd31.symm⟩
  · have hD2 : dbmY y m + d - 1 ≤ 364 := by
      by_cases hb : leap y = true
      · simp [hb] at hdoy; omega
      · simp [hb] at hdoy; omega
    have hlv := fromOrd_levels (toOrd ⟨y, m, d⟩) a c f g (dbmY y m + d - 1)
      (by rw [htoOrd, hdby]; omega) hc hf hg hD2
    rw [hlv, ordLevel1_eval_normal a c f g _ hg hc]
    have hflag : (g == 3 && (f != 24 || c == 3)) = leap y := by
      rw [Bool.eq_iff_iff]
      simp only [Bool.and_eq_true, Bool.or_eq_true, beq_iff_eq, bne_iff_ne, ne_eq]
      rw [hleap]
    rw [hflag]
    have hprobe : probeMD (leap y) (dbmY y m + d - 1) = (m, d) :=
      probe_correct (leap y) m d hm1 hm2 hd1 hd2 hD2
    simp only [Ymd.mk.injEq]
    refine ⟨by omega, by rw [hprobe], by rw [hprobe]⟩



theorem dim_pos (y m : Nat) (hm1 : 1 ≤ m) (hm2 : m ≤ 12) : 1 ≤ dim y m := by
  by_cases hl : leap y = true <;> interval_cases m <;> simp [dim, mdays, hl]

set_option maxHeartbeats 1000000 in
theorem dby_step (y : Nat) (hy : 1 ≤ y) :
    dby (y + 1) = dby y + 365 + (if leap y = true then 1 else 0) := by
  have hchar : (leap y = true) ↔ (y % 4 = 0 ∧ (y % 100 ≠ 0 ∨ y % 400 = 0)) := by
    simp [leap, Bool.and_eq_true, Bool.or_eq_true]
  by_cases hl : leap y = true
  · rw [if_pos hl]
    have hc := hchar.mp hl
    show 365 * (y + 1 - 1) + (y + 1 - 1) / 4 - (y + 1 - 1) / 100 + (y + 1 - 1) / 400 =
      365 * (y - 1) + (y - 1) / 4 - (y - 1) / 100 + (y - 1) / 400 + 365 + 1
    clear hl hchar
    omega
  · rw [if_neg hl]
    have hc : ¬(y % 4 = 0 ∧ (y % 100 ≠ 0 ∨ y % 400 = 0)) := fun hx => hl (hchar.mpr hx)
    show 365 * (y + 1 - 1) + (y + 1 - 1) / 4 - (y + 1 - 1) / 100 + (y + 1 - 1) / 400 =
      365 * (y - 1) + (y - 1) / 4 - (y - 1) / 100 + (y - 1) / 400 + 365 + 0
    clear hl hchar
    omega

theorem dby_mono (x z : Nat) (hx : 1 ≤ x) (h : x ≤ z) : dby x ≤ dby z := by
  induction z, h using Nat.le_induction with
  | base => exact Nat.le_refl _
  | succ n hn ih =>
    have hstep := dby_step n (by omega)
    have : dby n ≤ dby (n + 1) := by rw [hstep]; omega
    exact Nat.le_trans ih this

theorem dbmY_step (y m : Nat) (hm1 : 1 ≤ m) (hm2 : m ≤ 11) :
    dbmY y (m + 1) = dbmY y m + dim y m := by
  by_cases hl : leap y = true <;> interval_cases m <;>
    simp [dbmY, dim, dbm, mdays, hl]

theorem toOrd_next (t : Ymd) (h : validYmd t) : toOrd (nextDate t) = toOrd t + 1 := by
  obtain ⟨y, m, d⟩ := t
  obtain ⟨hy1, hy2, hm1, hm2, hd1, hd2⟩ := h
  dsimp only at hy1 hy2 hm1 hm2 hd1 hd2
  unfold nextDate
  dsimp only
  split
  · rfl
  · rename_i hdd
    split
    · rename_i hmm
      show dby y + dbmY y (m + 1) + 1 = dby y + dbmY y m + d + 1
      rw [dbmY_step y m hm1 (by omega)]
      omega
    · rename_i hmm
      have hm12 : m = 12 := by omega
      subst hm12
      have hd31 : d = 31 := by
        have : dim y 12 = 31 := by by_cases hl : leap y = true <;> simp [dim, mdays, hl]
        omega
      subst hd31
      show dby (y + 1) + dbmY (y + 1) 1 + 1 = dby y + dbmY y 12 + 31 + 1
      rw [dby_step y hy1]
      have h1 : dbmY (y + 1) 1 = 0 := by
        by_cases hl : leap (y+1) = true <;> simp [dbmY, dbm, hl]
      have h2 : dbmY y 12 = 334 + (if leap y = true then 1 else 0) := by
        by_cases hl : leap y = true <;> simp [dbmY, dbm, hl]
      rw [h1, h2]
      omega

theorem toOrd_pos (t : Ymd) (h : validYmd t) : 1 ≤ toOrd t := by
  obtain ⟨y, m, d⟩ := t
  obtain ⟨hy1, hy2, hm1, hm2, hd1, hd2⟩ := h
  dsimp only at hd1
  show 1 ≤ dby y + dbmY y m + d
  omega

theorem toOrd_le_max (t : Ymd) (h : validYmd t) : toOrd t ≤ maxOrd := by
  obtain ⟨y, m, d⟩ := t
  obtain ⟨hy1, hy2, hm1, hm2, hd1, hd2⟩ := h
  dsimp only at hy1 hy2 hm1 hm2 hd1 hd2
  have hdoy := doy_bound y m d hm1 hm2 hd1 hd2
  have hstep := dby_step y
  have hmono : dby (y + 1) ≤ dby 10000 := dby_mono (y + 1) 10000 (by omega) (by omega)
  have hval : dby 10000 = 3652059 := by decide
  show dby y + dbmY y m + d ≤ maxOrd
  unfold maxOrd
  omega

theorem nextDate_valid (t : Ymd) (h : validYmd t) (hlt : toOrd t < maxOrd) :
    validYmd (nextDate t) := by
  obtain ⟨y, m, d⟩ := t
  obtain ⟨hy1, hy2, hm1, hm2, hd1, hd2⟩ := h
  dsimp only at hy1 hy2 hm1 hm2 hd1 hd2
  unfold nextDate
  dsimp only
  split
  · rename_i hdd
    show 1 ≤ y ∧ y ≤ 9999 ∧ 1 ≤ m ∧ m ≤ 12 ∧ 1 ≤ d + 1 ∧ d + 1 ≤ dim y m
    exact ⟨hy1, hy2, hm1, hm2, by omega, by omega⟩
  · rename_i hdd
    split
    · rename_i hmm
      show 1 ≤ y ∧ y ≤ 9999 ∧ 1 ≤ m + 1 ∧ m + 1 ≤ 12 ∧ 1 ≤ 1 ∧ 1 ≤ dim y (m + 1)
      exact ⟨hy1, hy2, by omega, by omega, by omega,
        dim_pos y (m + 1) (by omega) (by omega)⟩
    · rename_i hmm
      have hm12 : m = 12 := by omega
      subst hm12
      have hdim12 : dim y 12 = 31 := by
        by_cases hl : leap y = true <;> simp [dim, mdays, hl]
      have hy9998 : y ≤ 9998 := by
        by_contra hcc
        have hy9999 : y = 9999 := by omega
        subst hy9999
        have hord : toOrd ⟨9999, 12, d⟩ = dby 9999 + dbmY 9999 12 + d := rfl
        have e1 : dby 9999 = 3651694 := by decide
        have e2 : dbmY 9999 12 = 334 := by decide
        rw [hord, e1, e2] at hlt
        unfold maxOrd at hlt
        omega
      show 1 ≤ y + 1 ∧ y + 1 ≤ 9999 ∧ 1 ≤ 1 ∧ 1 ≤ 12 ∧ 1 ≤ 1 ∧ 1 ≤ dim (y + 1) 1
      exact ⟨by omega, by omega, by omega, by omega, by omega,
        dim_pos (y + 1) 1 (by omega) (by omega)⟩

theorem toOrd_surj (n : Nat) (h1 : 1 ≤ n) (h2 : n ≤ maxOrd) :
    ∃ t, validYmd t ∧ toOrd t = n := by
  induction n, h1 using Nat.le_induction with
  | base => exact ⟨⟨1, 1, 1⟩, by decide, by decide⟩
  | succ n hn ih =>
    obtain ⟨t, hv, ht⟩ := ih (by omega)
    have hlt : toOrd t < maxOrd := by omega
    exact ⟨nextDate t, nextDate_valid t hv hlt, by rw [toOrd_next t hv, ht]⟩

/-- CPython date.toordinal is a left inverse of date.fromordinal on the
supported ordinal range, and date.fromordinal returns valid dates there. -/
theorem toOrd_fromOrd (n : Nat) (h1 : 1 ≤ n) (h2 : n ≤ maxOrd) :
    toOrd (fromOrd n) = n ∧ validYmd (fromOrd n) := by
  obtain ⟨t, hv, ht⟩ := toOrd_surj n h1 h2
  rw [← ht, fromOrd_toOrd t hv]
  exact ⟨rfl, hv⟩



theorem digitVal_le (c : Char) (h : c.isDigit = true) : digitVal c ≤ 9 := by
  unfold Char.isDigit at h
  simp only [Bool.and_eq_true, decide_eq_true_eq] at h
  have h2 : c.val.toNat ≤ 57 := UInt32.toNat_le_of_le (by norm_num) h.2
  unfold digitVal Char.toNat
  omega

theorem yearSuffix_le (r : Str) (yv : Nat) (h : yearSuffix r = some yv) : yv ≤ 9999 := by
  rcases r with _ | ⟨c, r⟩
  · exact Option.noConfusion h
  · unfold yearSuffix at h
    dsimp only at h
    by_cases hsp : isSp c = true
    · rw [if_pos hsp] at h
      rcases hdw : r.dropWhile isSp with _ | ⟨a, rst1⟩
      · rw [hdw] at h; exact Option.noConfusion h
      rcases rst1 with _ | ⟨b, rst2⟩
      · rw [hdw] at h; exact Option.noConfusion h
      rcases rst2 with _ | ⟨c2, rst3⟩
      · rw [hdw] at h; exact Option.noConfusion h
      rcases rst3 with _ | ⟨d, rest⟩
      · rw [hdw] at h; exact Option.noConfusion h
      rw [hdw] at h
      dsimp only at h
      by_cases hdig : (a.isDigit && b.isDigit && c2.isDigit && d.isDigit) = true
      · rw [if_pos hdig] at h
        simp only [Option.some.injEq] at h
        simp only [Bool.and_eq_true] at hdig
        have ha := digitVal_le a hdig.1.1.1
        have hb := digitVal_le b hdig.1.1.2
        have hc := digitVal_le c2 hdig.1.2
        have hd := digitVal_le d hdig.2
        omega
      · rw [if_neg hdig] at h
        exact Option.noConfusion h
    · rw [if_neg hsp] at h
      exact Option.noConfusion h

theorem monthScan_inv (t : Str) (m : Nat) (yo : Option Nat)
    (h : monthScan t = some (m, yo)) :
    (1 ≤ m ∧ m ≤ 12) ∧ (∀ yv, yo = some yv → yv ≤ 9999) := by
  unfold monthScan at h
  obtain ⟨p, hp, hsome⟩ := List.exists_of_findSome?_eq_some h
  cases hfw : findWord p.1 false t with
  | none => rw [hfw] at hsome; simp at hsome
  | some rest =>
    rw [hfw] at hsome
    simp only [Option.map_some', Option.some.injEq, Prod.mk.injEq] at hsome
    obtain ⟨hm, hyo⟩ := hsome
    constructor
    · have hall : ∀ q ∈ MONTHS, 1 ≤ q.2 ∧ q.2 ≤ 12 := by decide
      exact hm ▸ hall p hp
    · intro yv hyv
      exact yearSuffix_le rest yv (by rw [hyo, hyv])


theorem ebind_ok {α β : Type} (a : α) (f : α → Except PyErr β) :
    (Except.ok a : Except PyErr α) >>= f = f a := rfl

theorem validYmd_mk (y m d : Nat) (h1 : 1 ≤ y) (h2 : y ≤ 9999) (h3 : 1 ≤ m)
    (h4 : m ≤ 12) (h5 : 1 ≤ d) (h6 : d ≤ dim y m) : validYmd ⟨y, m, d⟩ :=
  ⟨h1, h2, h3, h4, h5, h6⟩

theorem mkDate_ok (y m d : Nat) (h1 : 1 ≤ y) (h2 : y ≤ 9999) (h3 : 1 ≤ m) (h4 : m ≤ 12)
    (h5 : 1 ≤ d) (h6 : d ≤ dim y m) : mkDate y m d = Except.ok ⟨y, m, d⟩ := by
  unfold mkDate
  rw [if_pos ⟨h1, h2⟩, if_pos ⟨h3, h4⟩, if_pos ⟨h5, h6⟩]

theorem dim12_31 (y : Nat) : dim y 12 = 31 := by
  by_cases hl : leap y = true <;> simp [dim, mdays, hl]

theorem subDays_eval (t : Ymd) (n : Nat) :
    subDays t n = if n + 1 ≤ toOrd t ∧ toOrd t - n ≤ maxOrd
      then Except.ok (fromOrd (toOrd t - n)) else Except.error PyErr.overflow := rfl

theorem lastDay_of_next (t : Ymd) (hv : validYmd t) :
    subDays (nextDate t) 1 = Except.ok t := by
  rw [subDays_eval, toOrd_next t hv]
  have h1 := toOrd_pos t hv
  have h2 := toOrd_le_max t hv
  rw [if_pos ⟨by omega, by omega⟩]
  have he : toOrd t + 1 - 1 = toOrd t := by omega
  rw [he, fromOrd_toOrd t hv]

theorem nextDate_mid (y m d : Nat) (hd : ¬ d < dim y m) (hm : m < 12) :
    nextDate ⟨y, m, d⟩ = ⟨y, m + 1, 1⟩ := by
  unfold nextDate
  dsimp only
  rw [if_neg hd, if_pos hm]

theorem nextDate_dec (y d : Nat) (hd : ¬ d < dim y 12) :
    nextDate ⟨y, 12, d⟩ = ⟨y + 1, 1, 1⟩ := by
  unfold nextDate
  dsimp only
  rw [if_neg hd, if_neg (by omega : ¬ (12 : Nat) < 12)]

/-- C5: whenever the month scan of the date resolver finds a table month
with an explicit four-digit year (within the representable range), the
resolver answers with the first and the last calendar day of that month,
the last day arising as first-of-next-month minus one day with December
rolling into January of the next year. -/
theorem C5_named_month (t : Str) (ref : Ymd) (m yv : Nat)
    (hscan : monthScan t = some (m, some yv))
    (hy1 : 1 ≤ yv) (hdec : m = 12 → yv ≤ 9998) :
    monthRangeFromName ref t =
      Except.ok (some (isoYmd ⟨yv, m, 1⟩, isoYmd ⟨yv, m, dim yv m⟩)) := by
  obtain ⟨⟨hm1, hm2⟩, hyb⟩ := monthScan_inv t m (some yv) hscan
  have hy2 : yv ≤ 9999 := hyb yv rfl
  have step1 : monthRangeFromName ref t = (do
      let start ← mkDate yv m 1
      let stop ←
        if m == 12 then do
          let a ← mkDate (yv + 1) 1 1
          subDays a 1
        else do
          let a ← mkDate yv (m + 1) 1
          subDays a 1
      return some (isoYmd start, isoYmd stop)) := by
    unfold monthRangeFromName
    rw [hscan]
    exact rfl
  rw [step1, mkDate_ok yv m 1 hy1 hy2 hm1 hm2 (by omega) (dim_pos yv m hm1 hm2), ebind_ok]
  by_cases hm12 : m = 12
  · subst hm12
    rw [if_pos (by decide : ((12 : Nat) == 12) = true)]
    have hy98 := hdec rfl
    rw [mkDate_ok (yv + 1) 1 1 (by omega) (by omega) (by omega) (by omega)
      (by omega) (dim_pos (yv + 1) 1 (by omega) (by omega)), ebind_ok]
    rw [← nextDate_dec yv 31 (by rw [dim12_31]; omega)]
    rw [lastDay_of_next ⟨yv, 12, 31⟩
      (validYmd_mk yv 12 31 hy1 hy2 (by omega) (by omega) (by omega) (by rw [dim12_31]))]
    rw [ebind_ok, dim12_31]
    exact rfl
  · rw [if_neg (by simp [hm12] : ¬ (m == 12) = true)]
    rw [mkDate_ok yv (m + 1) 1 hy1 hy2 (by omega) (by omega) (by omega)
      (dim_pos yv (m + 1) (by omega) (by omega)), ebind_ok]
    rw [← nextDate_mid yv m (dim yv m) (by omega) (by omega)]
    rw [lastDay_of_next ⟨yv, m, dim yv m⟩
      (validYmd_mk yv m (dim yv m) hy1 hy2 hm1 hm2 (dim_pos yv m hm1 hm2) (Nat.le_refl _))]
    rw [ebind_ok]
    exact rfl

/-- C5 witness: the spec's own boundary examples, August 2024 and the
December year rollover. -/
theorem C5_witness :
    monthRangeFromName ⟨2025, 6, 15⟩ (str "agosto 2024") =
      Except.ok (some (str "2024-08-01", str "2024-08-31")) ∧
    monthRangeFromName ⟨2025, 6, 15⟩ (str "diciembre 2024") =
      Except.ok (some (str "2024-12-01", str "2024-12-31")) := by
  constructor
  · have h := C5_named_month (str "agosto 2024") ⟨2025, 6, 15⟩ 8 2024
      (by decide) (by decide) (by decide)
    rw [h]
    decide
  · have h := C5_named_month (str "diciembre 2024") ⟨2025, 6, 15⟩ 12 2024
      (by decide) (by decide) (by decide)
    rw [h]
    decide



/-- The month rule with arbitrary (explicit or reference-year) resolved year:
whenever the resolved year stays in range, the resolver succeeds with the
first and last day of the month. -/
theorem monthRange_ok (t : Str) (ref : Ymd) (m : Nat) (yo : Option Nat)
    (hscan : monthScan t = some (m, yo))
    (hy1 : 1 ≤ yo.getD ref.y) (hy2 : yo.getD ref.y ≤ 9999)
    (hdec : m = 12 → yo.getD ref.y ≤ 9998) :
    monthRangeFromName ref t =
      Except.ok (some (isoYmd ⟨yo.getD ref.y, m, 1⟩,
        isoYmd ⟨yo.getD ref.y, m, dim (yo.getD ref.y) m⟩)) := by
  obtain ⟨⟨hm1, hm2⟩, _⟩ := monthScan_inv t m yo hscan
  have step1 : monthRangeFromName ref t = (do
      let start ← mkDate (yo.getD ref.y) m 1
      let stop ←
        if m == 12 then do
          let a ← mkDate (yo.getD ref.y + 1) 1 1
          subDays a 1
        else do
          let a ← mkDate (yo.getD ref.y) (m + 1) 1
          subDays a 1
      return some (isoYmd start, isoYmd stop)) := by
    unfold monthRangeFromName
    rw [hscan]
    try exact rfl
  rw [step1, mkDate_ok (yo.getD ref.y) m 1 hy1 hy2 hm1 hm2 (by omega)
    (dim_pos (yo.getD ref.y) m hm1 hm2), ebind_ok]
  by_cases hm12 : m = 12
  · subst hm12
    rw [if_pos (by decide : ((12 : Nat) == 12) = true)]
    have hy98 := hdec rfl
    rw [mkDate_ok (yo.getD ref.y + 1) 1 1 (by omega) (by omega) (by omega) (by omega)
      (by omega) (dim_pos (yo.getD ref.y + 1) 1 (by omega) (by omega)), ebind_ok]
    rw [← nextDate_dec (yo.getD ref.y) 31 (by rw [dim12_31]; omega)]
    rw [lastDay_of_next ⟨yo.getD ref.y, 12, 31⟩
      (validYmd_mk _ 12 31 hy1 hy2 (by omega) (by omega) (by omega) (by rw [dim12_31]))]
    rw [ebind_ok, dim12_31]
    exact rfl
  · rw [if_neg (by simp [hm12] : ¬ (m == 12) = true)]
    rw [mkDate_ok (yo.getD ref.y) (m + 1) 1 hy1 hy2 (by omega) (by omega) (by omega)
      (dim_pos (yo.getD ref.y) (m + 1) (by omega) (by omega)), ebind_ok]
    rw [← nextDate_mid (yo.getD ref.y) m (dim (yo.getD ref.y) m) (by omega) (by omega)]
    rw [lastDay_of_next ⟨yo.getD ref.y, m, dim (yo.getD ref.y) m⟩
      (validYmd_mk _ m _ hy1 hy2 hm1 hm2 (dim_pos (yo.getD ref.y) m hm1 hm2)
        (Nat.le_refl _))]
    rw [ebind_ok]
    exact rfl

theorem applyDatePattern_ok (u : Str) (ref : Ymd) (h1 : ValidRef ref)
    (h2 : MonthBad ref u = false) (h3 : UltimosBad ref u = false) :
    ∃ p, applyDatePattern ref u = Except.ok p := by
  obtain ⟨⟨hv1, hv2, hv3, hv4, hv5, hv6⟩, hr2, hr98⟩ := h1
  have hdby2 : (365 : Nat) ≤ dby ref.y := by
    have hm := dby_mono 2 ref.y (by omega) hr2
    have he : dby 2 = 365 := by decide
    omega
  have hN : 366 ≤ toOrd ref := by
    show 366 ≤ dby ref.y + dbmY ref.y ref.m + ref.d
    omega
  have hNmax : toOrd ref ≤ maxOrd := toOrd_le_max ref ⟨hv1, hv2, hv3, hv4, hv5, hv6⟩
  have hwd : wday ref ≤ 6 := by
    show (toOrd ref + 6) % 7 ≤ 6
    omega
  cases hscan : monthScan u with
  | some p =>
    obtain ⟨m, yo⟩ := p
    obtain ⟨⟨hm1, hm2⟩, hyb⟩ := monthScan_inv u m yo hscan
    have hybounds : 1 ≤ yo.getD ref.y ∧ yo.getD ref.y ≤ 9999 ∧
        (m = 12 → yo.getD ref.y ≤ 9998) := by
      cases yo with
      | none =>
        simp only [Option.getD_none]
        exact ⟨by omega, by omega, fun _ => by omega⟩
      | some yv =>
        simp only [Option.getD_some]
        have hle := hyb yv rfl
        unfold MonthBad at h2
        rw [hscan] at h2
        dsimp only at h2
        simp only [Bool.or_eq_false_iff, Bool.and_eq_false_iff, beq_eq_false_iff_ne,
          ne_eq] at h2
        obtain ⟨hz, hw⟩ := h2
        refine ⟨by omega, by omega, fun hm12 => ?_⟩
        rcases hw with hw | hw
        · exact absurd hm12 hw
        · omega
    obtain ⟨hyy1, hyy2, hyy3⟩ := hybounds
    have hmr := monthRange_ok u ref m yo hscan hyy1 hyy2 hyy3
    unfold applyDatePattern
    rw [hmr]
    exact ⟨_, rfl⟩
  | none =>
    have hmr : monthRangeFromName ref u = Except.ok none := by
      unfold monthRangeFromName
      rw [hscan]
    unfold applyDatePattern
    rw [hmr]
    dsimp only
    by_cases hem : reSearch esteMesPat u = true
    · rw [if_pos hem]
      exact ⟨_, rfl⟩
    rw [if_neg hem]
    by_cases hmp : reSearch mesPasadoPat u = true
    · rw [if_pos hmp]
      have hvf : validYmd ⟨ref.y, ref.m, 1⟩ :=
        validYmd_mk _ _ _ hv1 hv2 hv3 hv4 (Nat.le_refl 1) (dim_pos ref.y ref.m hv3 hv4)
      have hord : 366 ≤ toOrd ⟨ref.y, ref.m, 1⟩ := by
        show 366 ≤ dby ref.y + dbmY ref.y ref.m + 1
        omega
      have hmax := toOrd_le_max _ hvf
      rw [subDays_eval, if_pos ⟨by omega, by omega⟩]
      exact ⟨_, rfl⟩
    rw [if_neg hmp]
    by_cases hes : reSearch estaSemanaPat u = true
    · rw [if_pos hes]
      rw [subDays_eval, if_pos ⟨by omega, by omega⟩]
      exact ⟨_, rfl⟩
    rw [if_neg hes]
    by_cases hsp : reSearch semanaPasadaPat u = true
    · rw [if_pos hsp]
      rw [subDays_eval, if_pos (⟨by omega, by omega⟩ :
        wday ref + 1 ≤ toOrd ref ∧ toOrd ref - wday ref ≤ maxOrd)]
      rw [ebind_ok]
      have hrt := toOrd_fromOrd (toOrd ref - wday ref) (by omega) (by omega)
      rw [subDays_eval, hrt.1, if_pos ⟨by omega, by omega⟩]
      rw [ebind_ok]
      rw [subDays_eval, hrt.1, if_pos ⟨by omega, by omega⟩]
      exact ⟨_, rfl⟩
    rw [if_neg hsp]
    cases hul : ultimosScan false u with
    | some n =>
      unfold UltimosBad at h3
      rw [hul] at h3
      simp only [Bool.or_eq_false_iff, decide_eq_false_iff_not, not_lt, not_le] at h3
      obtain ⟨hn1, hn2⟩ := h3
      dsimp only
      rw [if_pos (by omega : n ≤ 999999999)]
      rw [subDays_eval, if_pos ⟨by omega, by omega⟩]
      exact ⟨_, rfl⟩
    | none =>
      cases hde : desdeScan false u with
      | some q => exact ⟨_, rfl⟩
      | none => exact ⟨_, rfl⟩


/-- C1 (amended): normalize, is_greeting, is_farewell and detect_intent are
total by construction; extract_slots returns a value for every input except
when the named-month rule resolves an explicit year 0000 or December 9999
(Python date() raises ValueError there), or when an "ultimos N dias" phrase
carries an N beyond the timedelta limit or reaching before year 1 (Python
raises OverflowError there); the reference instant is assumed sane. -/
theorem C1_totality_amended (text : Str) (ref : Ymd) (h1 : ValidRef ref)
    (h2 : MonthBad ref (norm text) = false)
    (h3 : UltimosBad ref (norm text) = false) :
    ∃ s, extract_slots ref text = Except.ok s := by
  obtain ⟨p, hp⟩ := applyDatePattern_ok (norm text) ref h1 h2 h3
  obtain ⟨df, dt⟩ := p
  refine ⟨{
      site := none, area := none,
      otype := if reSearch cmPat (norm text) = true then some (str "CM")
        else if reSearch pmPat (norm text) = true then some (str "PM") else none,
      status := if substrB (str "abiert") (norm text) = true then some (str "Abierta")
        else if substrB (str "cerrad") (norm text) = true then some (str "Cerrada")
        else if substrB (str "progreso") (norm text) = true then some (str "En Progreso")
        else none,
      date_from := df, date_to := dt,
      technician := if (reSearch orderNounPat (norm text) ||
          (substrB (str "abiert") (norm text) || substrB (str "cerrad") (norm text))) = true
        then (TECHS.find? (fun w => reSearch (techPat w) (norm text))).map capFirst
        else none }, ?_⟩
  simp only [extract_slots]
  rw [hp]
  try exact rfl

/-- C1 counterexample: the claim promises totality for any four-digit year
such as 0000 or 9999, but the code raises ValueError on both "enero 0000"
and "diciembre 9999". -/
theorem C1_counterexample :
    extract_slots ⟨2025, 6, 15⟩ (str "enero 0000") = Except.error PyErr.value ∧
    extract_slots ⟨2025, 6, 15⟩ (str "diciembre 9999") = Except.error PyErr.value :=
  ⟨by decide, by decide⟩

/-- C1 witness: an ordinary input under an ordinary reference date. -/
theorem C1_witness : ∃ s, extract_slots ⟨2025, 6, 15⟩ (str "hola") = Except.ok s :=
  C1_totality_amended (str "hola") ⟨2025, 6, 15⟩
    ⟨by decide, by decide, by decide⟩ (by decide) (by decide)



theorem ebind_ok_inv {α β : Type} (e : Except PyErr α) (f : α → Except PyErr β) (b : β)
    (h : (e >>= f) = Except.ok b) : ∃ a, e = Except.ok a ∧ f a = Except.ok b := by
  cases e with
  | ok a => exact ⟨a, rfl, h⟩
  | error err => exact Except.noConfusion h

theorem mkDate_ok_inv (y m d : Nat) (t : Ymd) (h : mkDate y m d = Except.ok t) :
    t = ⟨y, m, d⟩ ∧ 1 ≤ y ∧ y ≤ 9999 ∧ 1 ≤ m ∧ m ≤ 12 ∧ 1 ≤ d ∧ d ≤ dim y m := by
  unfold mkDate at h
  split at h
  · rename_i hy
    split at h
    · rename_i hm
      split at h
      · rename_i hd
        cases h
        exact ⟨rfl, hy.1, hy.2, hm.1, hm.2, hd.1, hd.2⟩
      · exact Except.noConfusion h
    · exact Except.noConfusion h
  · exact Except.noConfusion h

theorem subDays_ok_inv (t : Ymd) (n : Nat) (r : Ymd) (h : subDays t n = Except.ok r) :
    r = fromOrd (toOrd t - n) ∧ n + 1 ≤ toOrd t ∧ toOrd t - n ≤ maxOrd := by
  rw [subDays_eval] at h
  split at h
  · rename_i hcond
    cases h
    exact ⟨rfl, hcond.1, hcond.2⟩
  · exact Except.noConfusion h

theorem pure_ok_inv {α : Type} (a b : α) (h : (pure a : Except PyErr α) = Except.ok b) :
    a = b := by
  cases h
  rfl


theorem monthRange_some_inv (u : Str) (ref : Ymd) (m : Nat) (yo : Option Nat)
    (q : Option (Str × Str))
    (hscan : monthScan u = some (m, yo))
    (hmr : monthRangeFromName ref u = Except.ok q) :
    q = some (isoYmd ⟨yo.getD ref.y, m, 1⟩,
        isoYmd ⟨yo.getD ref.y, m, dim (yo.getD ref.y) m⟩) ∧
      1 ≤ yo.getD ref.y ∧ yo.getD ref.y ≤ 9999 ∧ 1 ≤ m ∧ m ≤ 12 := by
  have horig := hmr
  have step1 : monthRangeFromName ref u = (do
      let start ← mkDate (yo.getD ref.y) m 1
      let stop ←
        if m == 12 then do
          let a ← mkDate (yo.getD ref.y + 1) 1 1
          subDays a 1
        else do
          let a ← mkDate (yo.getD ref.y) (m + 1) 1
          subDays a 1
      return some (isoYmd start, isoYmd stop)) := by
    unfold monthRangeFromName
    rw [hscan]
    try exact rfl
  rw [step1] at hmr
  obtain ⟨start, hmk, hrest⟩ := ebind_ok_inv _ _ _ hmr
  obtain ⟨hst, hy1, hy2, hm1, hm2, hh1, hh2⟩ := mkDate_ok_inv _ _ _ _ hmk
  have hdec : m = 12 → yo.getD ref.y ≤ 9998 := by
    intro hm12
    rw [if_pos (by simp [hm12] : (m == 12) = true)] at hrest
    obtain ⟨a, hmka, hrest2⟩ := ebind_ok_inv _ _ _ hrest
    obtain ⟨ha, hya1, hya2, hrest3⟩ := mkDate_ok_inv _ _ _ _ hmka
    omega
  have heq := monthRange_ok u ref m yo hscan hy1 hy2 hdec
  rw [horig] at heq
  exact ⟨Except.ok.inj heq, hy1, hy2, hm1, hm2⟩


theorem dim_le31 (y m : Nat) : dim y m ≤ 31 := by
  unfold dim
  split
  · omega
  · exact mdays_le31 m

theorem dbmY_dim_le (y m m' : Nat) (hm1 : 1 ≤ m) (h : m < m') (hm2 : m' ≤ 12) :
    dbmY y m + dim y m ≤ dbmY y m' := by
  have hm11 : m ≤ 11 := by omega
  by_cases hl : leap y = true <;> interval_cases m <;> interval_cases m' <;>
    simp [dbmY, dim, dbm, mdays, hl]

theorem toOrd_lex (d1 d2 : Ymd) (h1 : validYmd d1) (h2 : validYmd d2)
    (h : toOrd d1 ≤ toOrd d2) :
    d1.y < d2.y ∨ (d1.y = d2.y ∧ (d1.m < d2.m ∨ (d1.m = d2.m ∧ d1.d ≤ d2.d))) := by
  obtain ⟨y1, m1, dd1⟩ := d1
  obtain ⟨y2, m2, dd2⟩ := d2
  obtain ⟨a1, a2, a3, a4, a5, a6⟩ := h1
  obtain ⟨b1, b2, b3, b4, b5, b6⟩ := h2
  dsimp only at a1 a2 a3 a4 a5 a6 b1 b2 b3 b4 b5 b6 ⊢
  have e1 : toOrd ⟨y1, m1, dd1⟩ = dby y1 + dbmY y1 m1 + dd1 := rfl
  have e2 : toOrd ⟨y2, m2, dd2⟩ = dby y2 + dbmY y2 m2 + dd2 := rfl
  rw [e1, e2] at h
  rcases Nat.lt_trichotomy y1 y2 with hy | hy | hy
  · exact Or.inl hy
  · subst hy
    rcases Nat.lt_trichotomy m1 m2 with hm | hm | hm
    · exact Or.inr ⟨rfl, Or.inl hm⟩
    · subst hm
      exact Or.inr ⟨rfl, Or.inr ⟨rfl, by omega⟩⟩
    · exfalso
      have hstep := dbmY_dim_le y1 m2 m1 b3 hm a4
      omega
  · exfalso
    have hb := doy_bound y2 m2 dd2 b3 b4 b5 b6
    have hstep := dby_step y2 b1
    have hmono := dby_mono (y2 + 1) y1 (by omega) (by omega)
    by_cases hl : leap y2 = true
    · rw [if_pos hl] at hb hstep
      omega
    · rw [if_neg hl] at hb hstep
      omega

theorem digitChar_lt_of (a b : Nat) (ha : a ≤ 9) (hb : b ≤ 9) (h : a < b) :
    (digitChar a == digitChar b) = false ∧ decide (digitChar a < digitChar b) = true := by
  have hfin : ∀ a' b' : Fin 10, (a' : Nat) < (b' : Nat) →
      (digitChar (a' : Nat) == digitChar (b' : Nat)) = false ∧
        decide (digitChar (a' : Nat) < digitChar (b' : Nat)) = true := by decide
  exact hfin ⟨a, by omega⟩ ⟨b, by omega⟩ h

theorem isoStrLe_cons_self (a : Char) (u v : Str) :
    isoStrLe (a :: u) (a :: v) = isoStrLe u v := by
  simp [isoStrLe]

theorem isoStrLe_cons_lt (a b : Char) (u v : Str) (hne : (a == b) = false)
    (hlt : decide (a < b) = true) : isoStrLe (a :: u) (b :: v) = true := by
  simp [isoStrLe, hne, hlt]

theorem pad4_lt (y1 y2 : Nat) (h1 : y1 ≤ 9999) (h2 : y2 ≤ 9999) (h : y1 < y2)
    (r1 r2 : Str) : isoStrLe (pad4 y1 ++ r1) (pad4 y2 ++ r2) = true := by
  unfold pad4
  simp only [List.cons_append, List.nil_append]
  rcases Nat.lt_trichotomy (y1 / 1000 % 10) (y2 / 1000 % 10) with hd | hd | hd
  · obtain ⟨hne, hlt⟩ := digitChar_lt_of _ _ (by omega) (by omega) hd
    exact isoStrLe_cons_lt _ _ _ _ hne hlt
  · rw [hd, isoStrLe_cons_self]
    rcases Nat.lt_trichotomy (y1 / 100 % 10) (y2 / 100 % 10) with he | he | he
    · obtain ⟨hne, hlt⟩ := digitChar_lt_of _ _ (by omega) (by omega) he
      exact isoStrLe_cons_lt _ _ _ _ hne hlt
    · rw [he, isoStrLe_cons_self]
      rcases Nat.lt_trichotomy (y1 / 10 % 10) (y2 / 10 % 10) with hf | hf | hf
      · obtain ⟨hne, hlt⟩ := digitChar_lt_of _ _ (by omega) (by omega) hf
        exact isoStrLe_cons_lt _ _ _ _ hne hlt
      · rw [hf, isoStrLe_cons_self]
        rcases Nat.lt_trichotomy (y1 % 10) (y2 % 10) with hg | hg | hg
        · obtain ⟨hne, hlt⟩ := digitChar_lt_of _ _ (by omega) (by omega) hg
          exact isoStrLe_cons_lt _ _ _ _ hne hlt
        · exfalso
          omega
        · exfalso
          omega
      · exfalso
        omega
    · exfalso
      omega
  · exfalso
    omega

theorem pad4_self (y : Nat) (r1 r2 : Str) :
    isoStrLe (pad4 y ++ r1) (pad4 y ++ r2) = isoStrLe r1 r2 := by
  unfold pad4
  simp only [List.cons_append, List.nil_append]
  rw [isoStrLe_cons_self, isoStrLe_cons_self, isoStrLe_cons_self, isoStrLe_cons_self]

theorem pad2_lt (m1 m2 : Nat) (h1 : m1 ≤ 99) (h2 : m2 ≤ 99) (h : m1 < m2)
    (r1 r2 : Str) : isoStrLe (pad2 m1 ++ r1) (pad2 m2 ++ r2) = true := by
  unfold pad2
  simp only [List.cons_append, List.nil_append]
  rcases Nat.lt_trichotomy (m1 / 10 % 10) (m2 / 10 % 10) with hd | hd | hd
  · obtain ⟨hne, hlt⟩ := digitChar_lt_of _ _ (by omega) (by omega) hd
    exact isoStrLe_cons_lt _ _ _ _ hne hlt
  · rw [hd, isoStrLe_cons_self]
    rcases Nat.lt_trichotomy (m1 % 10) (m2 % 10) with he | he | he
    · obtain ⟨hne, hlt⟩ := digitChar_lt_of _ _ (by omega) (by omega) he
      exact isoStrLe_cons_lt _ _ _ _ hne hlt
    · exfalso
      omega
    · exfalso
      omega
  · exfalso
    omega

theorem pad2_self (m : Nat) (r1 r2 : Str) :
    isoStrLe (pad2 m ++ r1) (pad2 m ++ r2) = isoStrLe r1 r2 := by
  unfold pad2
  simp only [List.cons_append, List.nil_append]
  rw [isoStrLe_cons_self, isoStrLe_cons_self]

theorem isoStrLe_of_ord (d1 d2 : Ymd) (h1 : validYmd d1) (h2 : validYmd d2)
    (h : toOrd d1 ≤ toOrd d2) : isoStrLe (isoYmd d1) (isoYmd d2) = true := by
  have hlex := toOrd_lex d1 d2 h1 h2 h
  obtain ⟨a1, a2, a3, a4, a5, a6⟩ := h1
  obtain ⟨b1, b2, b3, b4, b5, b6⟩ := h2
  have hda : d1.d ≤ 31 := Nat.le_trans a6 (dim_le31 d1.y d1.m)
  have hdb : d2.d ≤ 31 := Nat.le_trans b6 (dim_le31 d2.y d2.m)
  unfold isoYmd
  rw [List.append_assoc, List.append_assoc]
  rcases hlex with hy | ⟨hy, hrest⟩
  · exact pad4_lt d1.y d2.y (by omega) (by omega) hy _ _
  · rw [hy,
        pad4_self d2.y (('-' :: pad2 d1.m) ++ ('-' :: pad2 d1.d))
          (('-' :: pad2 d2.m) ++ ('-' :: pad2 d2.d)),
        List.cons_append, List.cons_append, isoStrLe_cons_self]
    rcases hrest with hm | ⟨hm, hd⟩
    · exact pad2_lt d1.m d2.m (by omega) (by omega) hm _ _
    · rw [hm, pad2_self d2.m ('-' :: pad2 d1.d) ('-' :: pad2 d2.d), isoStrLe_cons_self]
      rcases Nat.lt_or_ge d1.d d2.d with hlt | hge
      · have e1 : pad2 d1.d = pad2 d1.d ++ [] := (List.append_nil _).symm
        have e2 : pad2 d2.d = pad2 d2.d ++ [] := (List.append_nil _).symm
        rw [e1, e2]
        exact pad2_lt d1.d d2.d (by omega) (by omega) hlt [] []
      · have heq : d1.d = d2.d := by omega
        rw [heq]
        unfold pad2
        rw [isoStrLe_cons_self, isoStrLe_cons_self]
        rfl

theorem c2_pack (f g : Str) (d1 d2 : Ymd) (h1 : validYmd d1) (h2 : validYmd d2)
    (hf : f = isoYmd d1) (hg : g = isoYmd d2) (hord : toOrd d1 ≤ toOrd d2) :
    ∃ e1 e2 : Ymd, validYmd e1 ∧ validYmd e2 ∧ f = isoYmd e1 ∧ g = isoYmd e2 ∧
      toOrd e1 ≤ toOrd e2 ∧ isoStrLe f g = true :=
  ⟨d1, d2, h1, h2, hf, hg, hord, by
    rw [hf, hg]
    exact isoStrLe_of_ord d1 d2 h1 h2 hord⟩


/-- C2 (amended): whenever extract_slots succeeds and the explicit
"desde D hasta D" rule does not match the normalized text, a fully-set date
pair satisfies date_from not after date_to: both strings are ISO renderings
of VALID calendar dates in chronological order, and the rendered strings
themselves compare accordingly.  (The verbatim desde-hasta rule is the one
exception: it copies the two literals unchecked.) -/
theorem C2_date_invariant_amended (text : Str) (ref : Ymd) (s : Slots)
    (href : validYmd ref)
    (h : extract_slots ref text = Except.ok s)
    (hnd : desdeScan false (norm text) = none)
    (f g : Str) (hf : s.date_from = some f) (hg : s.date_to = some g) :
    ∃ d1 d2 : Ymd, validYmd d1 ∧ validYmd d2 ∧ f = isoYmd d1 ∧ g = isoYmd d2 ∧
      toOrd d1 ≤ toOrd d2 ∧ isoStrLe f g = true := by
  obtain ⟨df, dt, hdp, hdf, hdt⟩ := (extract_slots_ok_fields ref text s h).2.2.2
  rw [hdf] at hf
  rw [hdt] at hg
  subst hf
  subst hg
  obtain ⟨hv1, hv2, hv3, hv4, hv5, hv6⟩ := href
  cases hmr : monthRangeFromName ref (norm text) with
  | error e =>
    unfold applyDatePattern at hdp
    rw [hmr] at hdp
    exact Except.noConfusion hdp
  | ok q =>
    cases hscan : monthScan (norm text) with
    | some p =>
      obtain ⟨m, yo⟩ := p
      obtain ⟨hq, hy1, hy2, hm1, hm2⟩ := monthRange_some_inv _ ref m yo _ hscan hmr
      subst hq
      unfold applyDatePattern at hdp
      rw [hmr] at hdp
      dsimp only at hdp
      simp only [Except.ok.injEq, Prod.mk.injEq, Option.some.injEq] at hdp
      obtain ⟨hfa, hgb⟩ := hdp
      have hdimp := dim_pos (yo.getD ref.y) m hm1 hm2
      refine c2_pack _ _ ⟨yo.getD ref.y, m, 1⟩ ⟨yo.getD ref.y, m, dim (yo.getD ref.y) m⟩
        ?_ ?_ hfa.symm hgb.symm ?_
      · exact ⟨hy1, hy2, hm1, hm2, Nat.le_refl 1, hdimp⟩
      · exact ⟨hy1, hy2, hm1, hm2, hdimp, Nat.le_refl _⟩
      · show dby (yo.getD ref.y) + dbmY (yo.getD ref.y) m + 1 ≤
          dby (yo.getD ref.y) + dbmY (yo.getD ref.y) m + dim (yo.getD ref.y) m
        omega
    | none =>
      have hnone : monthRangeFromName ref (norm text) = Except.ok none := by
        unfold monthRangeFromName
        rw [hscan]
      rw [hnone] at hmr
      have hq : q = none := (Except.ok.inj hmr).symm
      subst hq
      unfold applyDatePattern at hdp
      rw [hnone] at hdp
      dsimp only at hdp
      by_cases hem : reSearch esteMesPat (norm text) = true
      · rw [if_pos hem] at hdp
        simp only [Except.ok.injEq, Prod.mk.injEq, Option.some.injEq] at hdp
        obtain ⟨hfa, hgb⟩ := hdp
        refine c2_pack _ _ ⟨ref.y, ref.m, 1⟩ ref ?_ ?_ hfa.symm hgb.symm ?_
        · exact ⟨hv1, hv2, hv3, hv4, Nat.le_refl 1, dim_pos ref.y ref.m hv3 hv4⟩
        · exact ⟨hv1, hv2, hv3, hv4, hv5, hv6⟩
        · have hto : toOrd ref = dby ref.y + dbmY ref.y ref.m + ref.d := rfl
          show dby ref.y + dbmY ref.y ref.m + 1 ≤ toOrd ref
          omega
      rw [if_neg hem] at hdp
      by_cases hmp : reSearch mesPasadoPat (norm text) = true
      · rw [if_pos hmp] at hdp
        obtain ⟨lp, hsub, hpure⟩ := ebind_ok_inv _ _ _ hdp
        obtain ⟨hlp, hg1, hg2⟩ := subDays_ok_inv _ _ _ hsub
        have hrt := toOrd_fromOrd (toOrd ⟨ref.y, ref.m, 1⟩ - 1) (by omega) (by omega)
        rw [← hlp] at hrt
        have hpe := pure_ok_inv _ _ hpure
        simp only [Prod.mk.injEq, Option.some.injEq] at hpe
        obtain ⟨hfa, hgb⟩ := hpe
        refine c2_pack _ _ ⟨lp.y, lp.m, 1⟩ lp ?_ ?_ hfa.symm hgb.symm ?_
        · obtain ⟨k1, k2, k3, k4, k5, k6⟩ := hrt.2
          exact ⟨k1, k2, k3, k4, Nat.le_refl 1, dim_pos lp.y lp.m k3 k4⟩
        · exact hrt.2
        · obtain ⟨k1, k2, k3, k4, k5, k6⟩ := hrt.2
          have hto : toOrd lp = dby lp.y + dbmY lp.y lp.m + lp.d := rfl
          show dby lp.y + dbmY lp.y lp.m + 1 ≤ toOrd lp
          omega
      rw [if_neg hmp] at hdp
      by_cases hes : reSearch estaSemanaPat (norm text) = true
      · rw [if_pos hes] at hdp
        obtain ⟨st, hsub, hpure⟩ := ebind_ok_inv _ _ _ hdp
        obtain ⟨hst, hg1, hg2⟩ := subDays_ok_inv _ _ _ hsub
        have hrt := toOrd_fromOrd (toOrd ref - wday ref) (by omega) (by omega)
        rw [← hst] at hrt
        have hpe := pure_ok_inv _ _ hpure
        simp only [Prod.mk.injEq, Option.some.injEq] at hpe
        obtain ⟨hfa, hgb⟩ := hpe
        refine c2_pack _ _ st ref ?_ ?_ hfa.symm hgb.symm ?_
        · exact hrt.2
        · exact ⟨hv1, hv2, hv3, hv4, hv5, hv6⟩
        · omega
      rw [if_neg hes] at hdp
      by_cases hsp : reSearch semanaPasadaPat (norm text) = true
      · rw [if_pos hsp] at hdp
        obtain ⟨st, hsub1, hdp2⟩ := ebind_ok_inv _ _ _ hdp
        obtain ⟨hst, hga, hgb2⟩ := subDays_ok_inv _ _ _ hsub1
        obtain ⟨sp, hsub2, hdp3⟩ := ebind_ok_inv _ _ _ hdp2
        obtain ⟨hsp2, hgc, hgd⟩ := subDays_ok_inv _ _ _ hsub2
        obtain ⟨ep, hsub3, hpure⟩ := ebind_ok_inv _ _ _ hdp3
        obtain ⟨hep, hge, hgf2⟩ := subDays_ok_inv _ _ _ hsub3
        have hrt1 := toOrd_fromOrd (toOrd st - 7) (by omega) (by omega)
        have hrt2 := toOrd_fromOrd (toOrd st - 1) (by omega) (by omega)
        rw [← hsp2] at hrt1
        rw [← hep] at hrt2
        have hpe := pure_ok_inv _ _ hpure
        simp only [Prod.mk.injEq, Option.some.injEq] at hpe
        obtain ⟨hfa, hgb3⟩ := hpe
        refine c2_pack _ _ sp ep ?_ ?_ hfa.symm hgb3.symm ?_
        · exact hrt1.2
        · exact hrt2.2
        · omega
      rw [if_neg hsp] at hdp
      cases hul : ultimosScan false (norm text) with
      | some n =>
        rw [hul] at hdp
        dsimp only at hdp
        by_cases hn : n ≤ 999999999
        · rw [if_pos hn] at hdp
          obtain ⟨st, hsub, hpure⟩ := ebind_ok_inv _ _ _ hdp
          obtain ⟨hst, hg1, hg2⟩ := subDays_ok_inv _ _ _ hsub
          have hrt := toOrd_fromOrd (toOrd ref - n) (by omega) (by omega)
          rw [← hst] at hrt
          have hpe := pure_ok_inv _ _ hpure
          simp only [Prod.mk.injEq, Option.some.injEq] at hpe
          obtain ⟨hfa, hgb⟩ := hpe
          refine c2_pack _ _ st ref ?_ ?_ hfa.symm hgb.symm ?_
          · exact hrt.2
          · exact ⟨hv1, hv2, hv3, hv4, hv5, hv6⟩
          · omega
        · rw [if_neg hn] at hdp
          exact Except.noConfusion hdp
      | none =>
        rw [hul] at hdp
        dsimp only at hdp
        rw [hnd] at hdp
        dsimp only at hdp
        simp only [Except.ok.injEq, Prod.mk.injEq] at hdp
        exact Option.noConfusion hdp.1


/-- C2 counterexample: on "desde 2025-01-02 hasta 2025-01-01" the extractor
succeeds with both date fields set and date_from after date_to — the claim
that the invariant holds for every rule including the verbatim desde-hasta
rule is false. -/
theorem C2_counterexample :
    extract_slots ⟨2025, 6, 15⟩ (str "desde 2025-01-02 hasta 2025-01-01") =
      Except.ok slotsC2 ∧
    slotsC2.date_from = some (str "2025-01-02") ∧
    slotsC2.date_to = some (str "2025-01-01") ∧
    isoStrLe (str "2025-01-02") (str "2025-01-01") = false :=
  ⟨by decide, by decide, by decide, by decide⟩

/-- C2 witness: the named-month rule produces an ordered pair. -/
theorem C2_witness :
    ∃ d1 d2 : Ymd, validYmd d1 ∧ validYmd d2 ∧
      str "2024-01-01" = isoYmd d1 ∧ str "2024-01-31" = isoYmd d2 ∧
      toOrd d1 ≤ toOrd d2 ∧ isoStrLe (str "2024-01-01") (str "2024-01-31") = true :=
  C2_date_invariant_amended (str "enero 2024") ⟨2025, 6, 15⟩ slotsC2W (by decide)
    (by decide) (by decide) (str "2024-01-01") (str "2024-01-31") (by decide) (by decide)



theorem pfx_append (w s x : Str) (h : w.isPrefixOf s = true) :
    w.isPrefixOf (s ++ x) = true := by
  induction w generalizing s with
  | nil => simp [List.isPrefixOf]
  | cons a w' ih =>
    cases s with
    | nil => exact absurd h (by simp [List.isPrefixOf])
    | cons b s' =>
      simp only [List.cons_append, List.isPrefixOf, Bool.and_eq_true] at h ⊢
      exact ⟨h.1, ih s' h.2⟩

theorem pfx_le_length (w s : Str) (h : w.isPrefixOf s = true) : w.length ≤ s.length := by
  induction w generalizing s with
  | nil => simp
  | cons a w' ih =>
    cases s with
    | nil => exact absurd h (by simp [List.isPrefixOf])
    | cons b s' =>
      simp only [List.isPrefixOf, Bool.and_eq_true] at h
      simpa using ih s' h.2

theorem pfx_snoc_inv (w s : Str) (c : Char) (h : w.isPrefixOf (s ++ [c]) = true) :
    w.isPrefixOf s = true ∨ w = s ++ [c] := by
  induction w generalizing s with
  | nil => exact Or.inl (by simp [List.isPrefixOf])
  | cons a w' ih =>
    cases s with
    | nil =>
      simp only [List.nil_append, List.isPrefixOf, Bool.and_eq_true] at h
      cases w' with
      | nil =>
        right
        simp only [beq_iff_eq] at h
        simp [h.1]
      | cons b w'' => exact absurd h.2 (by simp [List.isPrefixOf])
    | cons b s' =>
      simp only [List.cons_append, List.isPrefixOf, Bool.and_eq_true] at h
      rcases ih s' h.2 with hl | hr
      · left
        simp only [List.isPrefixOf, Bool.and_eq_true]
        exact ⟨h.1, hl⟩
      · right
        simp only [beq_iff_eq] at h
        simp [h.1, hr]

theorem drop_app_le (n : Nat) (s t : Str) (h : n ≤ s.length) :
    (s ++ t).drop n = s.drop n ++ t := by
  induction s generalizing n with
  | nil =>
    have : n = 0 := by simpa using h
    simp [this]
  | cons a s' ih =>
    cases n with
    | zero => simp
    | succ k =>
      simp only [List.cons_append, List.drop_succ_cons]
      exact ih k (by simpa using h)

theorem segsMatch_nil_of_lastlit (k : List Seg) (hk : k.all segOk = true)
    (hlast : (match k.getLast? with | some (Seg.lit _) => true | _ => false) = true) :
    segsMatch k [] = none := by
  induction k with
  | nil => simp at hlast
  | cons seg k' ih =>
    cases seg with
    | lit w =>
      simp only [List.all_cons, Bool.and_eq_true] at hk
      have hw : w.isEmpty = false := by
        have := hk.1
        unfold segOk litOk at this
        simp only [Bool.and_eq_true, Bool.not_eq_true'] at this
        exact this.1
      have hwne : w ≠ [] := by
        cases w
        · simp at hw
        · simp
      show (if w.isPrefixOf [] = true then segsMatch k' (List.drop w.length []) else none) = none
      rw [if_neg]
      intro hcon
      cases w with
      | nil => exact hwne rfl
      | cons a w' => simp [List.isPrefixOf] at hcon
    | ws =>
      simp only [List.all_cons, Bool.and_eq_true] at hk
      have hk' : k' ≠ [] := by
        intro hcon
        subst hcon
        simp at hlast
      show segsMatch k' (List.dropWhile isSp []) = none
      have hlast' : (match k'.getLast? with | some (Seg.lit _) => true | _ => false) = true := by
        cases k' with
        | nil => exact absurd rfl hk'
        | cons x xs => simpa [List.getLast?_cons_cons] using hlast
      exact ih hk.2 hlast'

theorem dw_app_not_all (p : Char → Bool) (s t : Str) (h : ¬ (s.all p = true)) :
    (s ++ t).dropWhile p = s.dropWhile p ++ t := by
  induction s with
  | nil => simp at h
  | cons c r ih =>
    by_cases hc : p c = true
    · have h' : ¬ (r.all p = true) := by
        intro hcon
        exact h (by simp [List.all_cons, hc, hcon])
      simp only [List.cons_append, List.dropWhile_cons, hc, if_true]
      exact ih h'
    · simp [List.dropWhile_cons, hc]

theorem bdOk_pad (r : Str) : bdOk (r ++ [' ']) = bdOk r := by
  cases r with
  | nil => decide
  | cons c t => rfl

theorem segsMatch_pad (a : Alt) :
    ∀ s : Str, a.all segOk = true →
    (match a.getLast? with | some (Seg.lit _) => true | _ => false) = true →
    segsMatch a (s ++ [' ']) = (segsMatch a s).map (fun r => r ++ [' ']) := by
  induction a with
  | nil => intro s _ hlast; simp at hlast
  | cons seg k ih =>
    intro s hok hlast
    simp only [List.all_cons, Bool.and_eq_true] at hok
    cases seg with
    | lit w =>
      have hlit := hok.1
      unfold segOk litOk at hlit
      simp only [Bool.and_eq_true, Bool.not_eq_true'] at hlit
      have hwlast : (match w.getLast? with | some c => !(isSp c) | none => false) = true :=
        hlit.2
      simp only [segsMatch]
      by_cases hp : w.isPrefixOf s = true
      · rw [if_pos (pfx_append w s [' '] hp), if_pos hp,
            drop_app_le w.length s [' '] (pfx_le_length w s hp)]
        cases k with
        | nil => simp [segsMatch]
        | cons k0 k' =>
          have hlast' :
              (match (k0 :: k').getLast? with | some (Seg.lit _) => true | _ => false) = true := by
            simpa [List.getLast?_cons_cons] using hlast
          exact ih (s.drop w.length) hok.2 hlast'
      · have hp2 : ¬ (w.isPrefixOf (s ++ [' ']) = true) := by
          intro hcon
          rcases pfx_snoc_inv w s ' ' hcon with h1 | h2
          · exact hp h1
          · rw [h2, List.getLast?_concat] at hwlast
            exact absurd hwlast (by decide)
        rw [if_neg hp2, if_neg hp]
        rfl
    | ws =>
      have hk' : k ≠ [] := by
        intro hcon
        subst hcon
        simp at hlast
      have hlast' : (match k.getLast? with | some (Seg.lit _) => true | _ => false) = true := by
        cases k with
        | nil => exact absurd rfl hk'
        | cons x xs => simpa [List.getLast?_cons_cons] using hlast
      simp only [segsMatch]
      by_cases hall : s.all isSp = true
      · have h1 : s.dropWhile isSp = [] :=
          List.dropWhile_eq_nil_iff.mpr (fun x hx => List.all_eq_true.mp hall x hx)
        have h2 : (s ++ [' ']).dropWhile isSp = [] := by
          apply List.dropWhile_eq_nil_iff.mpr
          intro x hx
          rcases List.mem_append.mp hx with hxs | hxe
          · exact List.all_eq_true.mp hall x hxs
          · simp only [List.mem_singleton] at hxe
            subst hxe
            decide
        rw [h1, h2, segsMatch_nil_of_lastlit k hok.2 hlast']
        rfl
      · rw [dw_app_not_all isSp s [' '] hall]
        exact ih (s.dropWhile isSp) hok.2 hlast'

theorem segsMatch_sp_head (a : Alt)
    (hhead : (match a with | Seg.lit (c :: _) :: _ => !(isSp c) | _ => false) = true)
    (s : Str) : segsMatch a (' ' :: s) = none := by
  cases a with
  | nil => simp at hhead
  | cons seg k =>
    cases seg with
    | ws => simp at hhead
    | lit w =>
      cases w with
      | nil => simp at hhead
      | cons c w' =>
        have hnp : ((c :: w').isPrefixOf (' ' :: s)) = false := by
          cases hcase : (c :: w').isPrefixOf (' ' :: s) with
          | false => rfl
          | true =>
            exfalso
            simp only [List.isPrefixOf, Bool.and_eq_true, beq_iff_eq] at hcase
            have hceq : c = ' ' := hcase.1
            subst hceq
            have hh : (!(isSp ' ')) = true := hhead
            exact absurd hh (by decide)
        simp only [segsMatch, hnp]
        simp

theorem groupMatch_pad (g : List Alt) (s : Str) (hok : g.all altOk = true) :
    groupMatch g (s ++ [' ']) = (groupMatch g s).map (fun r => r ++ [' ']) := by
  induction g with
  | nil => rfl
  | cons a g' ih =>
    simp only [List.all_cons, Bool.and_eq_true] at hok
    have ha := hok.1
    unfold altOk at ha
    simp only [Bool.and_eq_true] at ha
    simp only [groupMatch]
    rw [segsMatch_pad a s ha.2 ha.1.2]
    cases hsm : segsMatch a s with
    | none =>
      simp only [Option.map_none']
      exact ih hok.2
    | some r =>
      simp only [Option.map_some']
      rw [bdOk_pad r]
      by_cases hbd : bdOk r = true
      · rw [if_pos hbd, if_pos hbd]
        simp
      · rw [if_neg hbd, if_neg hbd]
        exact ih hok.2

theorem groupMatch_sp (g : List Alt) (hok : g.all altOk = true) (s : Str) :
    groupMatch g (' ' :: s) = none := by
  induction g with
  | nil => rfl
  | cons a g' ih =>
    simp only [List.all_cons, Bool.and_eq_true] at hok
    have ha := hok.1
    unfold altOk at ha
    simp only [Bool.and_eq_true] at ha
    simp only [groupMatch]
    rw [segsMatch_sp_head a ha.1.1 s]
    exact ih hok.2

theorem seqSearch_trail (gs : List (List Alt)) :
    patOk gs = true → ∀ s prevW, seqSearch gs prevW (s ++ [' ']) = seqSearch gs prevW s := by
  induction gs with
  | nil => intro _ s prevW; rfl
  | cons g gs' ihg =>
    intro hok s
    have hg : g.all altOk = true := by
      unfold patOk at hok
      simp only [List.all_cons, Bool.and_eq_true] at hok
      exact hok.1
    have hok' : patOk gs' = true := by
      unfold patOk at hok ⊢
      simp only [List.all_cons, Bool.and_eq_true] at hok
      exact hok.2
    induction s with
    | nil =>
      intro prevW
      simp only [List.nil_append, seqSearch, seqSearchOne, groupMatch_sp g hg [], Option.elim]
      simp
    | cons c r ihs =>
      intro prevW
      have hgp : groupMatch g (c :: (r ++ [' '])) =
          (groupMatch g (c :: r)).map (fun x => x ++ [' ']) := by
        rw [← List.cons_append]
        exact groupMatch_pad g (c :: r) hg
      simp only [List.cons_append, seqSearch, seqSearchOne, List.append_eq]
      rw [hgp]
      have h2 : seqSearchOne g (seqSearch gs' true) (isW c) (r ++ [' ']) =
          seqSearchOne g (seqSearch gs' true) (isW c) r := ihs (isW c)
      cases hgm : groupMatch g (c :: r) with
      | none =>
        simp only [Option.map_none', Option.elim]
        rw [h2]
      | some rr =>
        simp only [Option.map_some', Option.elim]
        rw [ihg hok' rr true, h2]

theorem seqSearch_lead (gs : List (List Alt)) (hok : patOk gs = true) (s : Str) :
    seqSearch gs false (' ' :: s) = seqSearch gs false s := by
  cases gs with
  | nil => rfl
  | cons g gs' =>
    have hg : g.all altOk = true := by
      unfold patOk at hok
      simp only [List.all_cons, Bool.and_eq_true] at hok
      exact hok.1
    simp only [seqSearch, seqSearchOne, groupMatch_sp g hg s, Option.elim]
    have hw : isW ' ' = false := by decide
    rw [hw]
    simp

theorem reSearch_lead (gs : List (List Alt)) (hok : patOk gs = true) (s : Str) :
    reSearch gs (' ' :: s) = reSearch gs s := seqSearch_lead gs hok s

theorem reSearch_trail (gs : List (List Alt)) (hok : patOk gs = true) (s : Str) :
    reSearch gs (s ++ [' ']) = reSearch gs s := seqSearch_trail gs hok s false

theorem pfx_nil_false (w : Str) (hne : w.isEmpty = false) :
    w.isPrefixOf ([] : Str) = false := by
  cases w with
  | nil => simp at hne
  | cons c r => rfl

theorem find?_cons_pos {α} (p : α → Bool) (a : α) (l : List α) (h : p a = true) :
    (a :: l).find? p = some a := by
  simp [List.find?_cons, h]

theorem find?_cons_neg {α} (p : α → Bool) (a : α) (l : List α) (h : p a = false) :
    (a :: l).find? p = l.find? p := by
  simp [List.find?_cons, h]

theorem pfx_pad_eq (p s : Str)
    (hlast : (match p.getLast? with | some c => !(isSp c) | none => false) = true) :
    p.isPrefixOf (s ++ [' ']) = p.isPrefixOf s := by
  cases hcase : p.isPrefixOf s with
  | true => rw [pfx_append p s [' '] hcase]
  | false =>
    cases hcase2 : p.isPrefixOf (s ++ [' ']) with
    | false => rfl
    | true =>
      exfalso
      rcases pfx_snoc_inv p s ' ' hcase2 with h1 | h2
      · rw [hcase] at h1
        exact Bool.noConfusion h1
      · rw [h2, List.getLast?_concat] at hlast
        exact absurd hlast (by decide)

theorem substrB_lead (p : Str) (hok : wordOk p = true) (s : Str) :
    substrB p (' ' :: s) = substrB p s := by
  unfold wordOk at hok
  simp only [Bool.and_eq_true] at hok
  show (p.isPrefixOf (' ' :: s) || substrB p s) = substrB p s
  have hp : p.isPrefixOf (' ' :: s) = false := by
    cases p with
    | nil => exact absurd hok.1.1 (by decide)
    | cons c w' =>
      cases hcase : (c :: w').isPrefixOf (' ' :: s) with
      | false => rfl
      | true =>
        exfalso
        simp only [List.isPrefixOf, Bool.and_eq_true, beq_iff_eq] at hcase
        have hc : (!(isSp c)) = true := hok.1.2
        rw [hcase.1] at hc
        exact absurd hc (by decide)
  rw [hp]
  simp

theorem substrB_trail (p : Str) (hok : wordOk p = true) :
    ∀ s, substrB p (s ++ [' ']) = substrB p s := by
  intro s
  unfold wordOk at hok
  simp only [Bool.and_eq_true] at hok
  induction s with
  | nil =>
    show (p.isPrefixOf (' ' :: []) || substrB p []) = substrB p []
    have h1 : p.isPrefixOf (([] : Str) ++ [' ']) = p.isPrefixOf [] := pfx_pad_eq p [] hok.2
    have h2 : p.isPrefixOf ([] : Str) = false := pfx_nil_false p (by simpa using hok.1.1)
    have hp : p.isPrefixOf (' ' :: ([] : Str)) = false := by
      have h3 := h1.trans h2
      simpa using h3
    rw [hp]
    simp
  | cons c r ih =>
    show (p.isPrefixOf ((c :: r) ++ [' ']) || substrB p (r ++ [' '])) =
      (p.isPrefixOf (c :: r) || substrB p r)
    rw [pfx_pad_eq p (c :: r) hok.2, ih]

theorem any_substr_lead (L : List Str) (z : Str) :
    L.all wordOk = true →
    L.any (fun g => substrB g (' ' :: z)) = L.any (fun g => substrB g z) := by
  induction L with
  | nil => intro _; rfl
  | cons w L' ih =>
    intro hok
    simp only [List.all_cons, Bool.and_eq_true] at hok
    simp only [List.any_cons]
    rw [substrB_lead w hok.1 z, ih hok.2]

theorem any_substr_trail (L : List Str) (z : Str) :
    L.all wordOk = true →
    L.any (fun g => substrB g (z ++ [' '])) = L.any (fun g => substrB g z) := by
  induction L with
  | nil => intro _; rfl
  | cons w L' ih =>
    intro hok
    simp only [List.all_cons, Bool.and_eq_true] at hok
    simp only [List.any_cons]
    rw [substrB_trail w hok.1 z, ih hok.2]

theorem findPref_nil (alts : List Str) :
    alts.all wordOk = true → findPref alts ([] : Str) = none := by
  induction alts with
  | nil => intro _; rfl
  | cons w alts' ih =>
    intro hok
    simp only [List.all_cons, Bool.and_eq_true] at hok
    have hw := hok.1
    unfold wordOk at hw
    simp only [Bool.and_eq_true] at hw
    have hp : w.isPrefixOf ([] : Str) = false := pfx_nil_false w (by simpa using hw.1.1)
    unfold findPref
    rw [find?_cons_neg (fun x => List.isPrefixOf x ([] : Str)) w alts' hp]
    exact ih hok.2

theorem findPref_pad (alts : List Str) (u : Str) :
    alts.all wordOk = true → findPref alts (u ++ [' ']) = findPref alts u := by
  induction alts with
  | nil => intro _; rfl
  | cons w alts' ih =>
    intro hok
    simp only [List.all_cons, Bool.and_eq_true] at hok
    have hw := hok.1
    unfold wordOk at hw
    simp only [Bool.and_eq_true] at hw
    have heq : w.isPrefixOf (u ++ [' ']) = w.isPrefixOf u := pfx_pad_eq w u hw.2
    cases hcase : w.isPrefixOf u with
    | true =>
      unfold findPref
      rw [find?_cons_pos (fun x => List.isPrefixOf x (u ++ [' '])) w alts'
            (by show List.isPrefixOf w (u ++ [' ']) = true; rw [heq]; exact hcase),
          find?_cons_pos (fun x => List.isPrefixOf x u) w alts' hcase]
    | false =>
      unfold findPref
      rw [find?_cons_neg (fun x => List.isPrefixOf x (u ++ [' '])) w alts'
            (by show List.isPrefixOf w (u ++ [' ']) = false; rw [heq]; exact hcase),
          find?_cons_neg (fun x => List.isPrefixOf x u) w alts' hcase]
      exact ih hok.2

theorem findPref_sp (alts : List Str) (s : Str) :
    alts.all wordOk = true → findPref alts (' ' :: s) = none := by
  induction alts with
  | nil => intro _; rfl
  | cons w alts' ih =>
    intro hok
    simp only [List.all_cons, Bool.and_eq_true] at hok
    have hw := hok.1
    unfold wordOk at hw
    simp only [Bool.and_eq_true] at hw
    have hp : w.isPrefixOf (' ' :: s) = false := by
      cases w with
      | nil => exact absurd hw.1.1 (by decide)
      | cons c w' =>
        cases hcase : (c :: w').isPrefixOf (' ' :: s) with
        | false => rfl
        | true =>
          exfalso
          simp only [List.isPrefixOf, Bool.and_eq_true, beq_iff_eq] at hcase
          have hc : (!(isSp c)) = true := hw.1.2
          rw [hcase.1] at hc
          exact absurd hc (by decide)
    unfold findPref
    rw [find?_cons_neg (fun x => List.isPrefixOf x (' ' :: s)) w alts' hp]
    exact ih hok.2

theorem subAll_lead (alts : List Str) (hok : alts.all wordOk = true) (s : Str) :
    subAll alts (' ' :: s) = ' ' :: subAll alts s := by
  show subAllAux alts 0 (' ' :: s) = ' ' :: subAllAux alts 0 s
  simp only [subAllAux]
  rw [findPref_sp alts s hok]

theorem subAllAux_pad (alts : List Str) (hok : alts.all wordOk = true) :
    ∀ s k, k ≤ s.length → subAllAux alts k (s ++ [' ']) = subAllAux alts k s ++ [' '] := by
  intro s
  induction s with
  | nil =>
    intro k hk
    have hk0 : k = 0 := Nat.le_zero.mp hk
    subst hk0
    rw [List.nil_append]
    have hsp : findPref alts ([' '] : Str) = none := by
      have h1 := findPref_pad alts [] hok
      rw [List.nil_append, findPref_nil alts hok] at h1
      exact h1
    simp only [subAllAux]
    rw [hsp]
    rfl
  | cons c r ih =>
    intro k hk
    cases k with
    | succ j =>
      rw [List.cons_append]
      simp only [subAllAux]
      exact ih j (by simpa using hk)
    | zero =>
      rw [List.cons_append]
      simp only [subAllAux]
      rw [← List.cons_append, findPref_pad alts (c :: r) hok]
      cases hf : findPref alts (c :: r) with
      | none =>
        rw [ih 0 (Nat.zero_le _)]
        rfl
      | some w =>
        have hpw : w.isPrefixOf (c :: r) = true := by
          have h := List.find?_some hf
          simpa using h
        have hwlen := pfx_le_length w (c :: r) hpw
        simp only [List.length_cons] at hwlen
        exact ih (w.length - 1) (by omega)

theorem subAll_trail (alts : List Str) (hok : alts.all wordOk = true) (s : Str) :
    subAll alts (s ++ [' ']) = subAll alts s ++ [' '] :=
  subAllAux_pad alts hok s 0 (Nat.zero_le _)

theorem find?_pat (L : List (List (List Alt) × Intent)) (u v : Str)
    (hok : L.all (fun p => patOk p.1) = true)
    (hequiv : ∀ gs, patOk gs = true → reSearch gs u = reSearch gs v) :
    L.find? (fun p => reSearch p.1 u) = L.find? (fun p => reSearch p.1 v) := by
  induction L with
  | nil => rfl
  | cons p L' ih =>
    simp only [List.all_cons, Bool.and_eq_true] at hok
    have hu : reSearch p.1 u = reSearch p.1 v := hequiv p.1 hok.1
    cases hpv : reSearch p.1 v with
    | true =>
      rw [find?_cons_pos (fun q => reSearch q.1 u) p L' (by show reSearch p.1 u = true; rw [hu]; exact hpv),
          find?_cons_pos (fun q => reSearch q.1 v) p L' hpv]
    | false =>
      rw [find?_cons_neg (fun q => reSearch q.1 u) p L' (by show reSearch p.1 u = false; rw [hu]; exact hpv),
          find?_cons_neg (fun q => reSearch q.1 v) p L' hpv]
      exact ih hok.2

theorem greetings_ok : GREETINGS.all wordOk = true := by decide

theorem techs_ok : TECHS.all wordOk = true := by decide

theorem filler_ok : fillerAlts.all wordOk = true := by decide

theorem orderNoun_ok : patOk orderNounPat = true := by decide

theorem intents_ok : INTENTS.all (fun p => patOk p.1) = true := by decide

theorem abiert_ok : wordOk (str "abiert") = true := by decide

theorem cerrad_ok : wordOk (str "cerrad") = true := by decide

theorem progreso_ok : wordOk (str "progreso") = true := by decide

theorem detectCore_lead (z : Str) : detectCore (' ' :: z) = detectCore z := by
  simp only [detectCore]
  rw [any_substr_lead GREETINGS z greetings_ok,
      any_substr_lead TECHS z techs_ok,
      reSearch_lead orderNounPat orderNoun_ok z,
      subAll_lead fillerAlts filler_ok z,
      substrB_lead (str "abiert") abiert_ok z,
      substrB_lead (str "cerrad") cerrad_ok z,
      substrB_lead (str "progreso") progreso_ok z,
      find?_pat INTENTS (' ' :: subAll fillerAlts z) (subAll fillerAlts z) intents_ok
        (fun gs h => reSearch_lead gs h (subAll fillerAlts z))]

theorem detectCore_trail (z : Str) : detectCore (z ++ [' ']) = detectCore z := by
  simp only [detectCore]
  rw [any_substr_trail GREETINGS z greetings_ok,
      any_substr_trail TECHS z techs_ok,
      reSearch_trail orderNounPat orderNoun_ok z,
      subAll_trail fillerAlts filler_ok z,
      substrB_trail (str "abiert") abiert_ok z,
      substrB_trail (str "cerrad") cerrad_ok z,
      substrB_trail (str "progreso") progreso_ok z,
      find?_pat INTENTS (subAll fillerAlts z ++ [' ']) (subAll fillerAlts z) intents_ok
        (fun gs h => reSearch_trail gs h (subAll fillerAlts z))]

theorem lowerChar_notin (c : Char) (h : c ∉ SPECIALS) : lowerChar c = c := by
  unfold lowerChar
  have hf : lowerTable.find? (fun p => p.1 == c) = none := by
    rw [List.find?_eq_none]
    intro p hp hbeq
    have hc : p.1 = c := by simpa using hbeq
    have hmem : ∀ q ∈ lowerTable, q.1 ∈ SPECIALS := by decide
    exact h (hc ▸ hmem p hp)
  rw [hf]
  rfl

theorem nfdChar_notin (c : Char) (h : c ∉ SPECIALS) : nfdChar c = [c] := by
  unfold nfdChar
  have hf : nfdTable.find? (fun p => p.1 == c) = none := by
    rw [List.find?_eq_none]
    intro p hp hbeq
    have hc : p.1 = c := by simpa using hbeq
    have hmem : ∀ q ∈ nfdTable, q.1 ∈ SPECIALS := by decide
    exact h (hc ▸ hmem p hp)
  rw [hf]
  rfl

theorem isMn_notin (c : Char) (h : c ∉ SPECIALS) : isMn c = false := by
  cases hm : isMn c with
  | false => rfl
  | true =>
    exfalso
    have hmem : c ∈ marksList := by
      unfold isMn at hm
      simpa using hm
    have hall : ∀ q ∈ marksList, q ∈ SPECIALS := by decide
    exact h (hall c hmem)

theorem isSp_notin (c : Char) (h : c ∉ SPECIALS) : isSp c = false := by
  cases hs : isSp c with
  | false => rfl
  | true =>
    exfalso
    unfold isSp at hs
    simp only [Bool.or_eq_true, beq_iff_eq] at hs
    rcases hs with ((((h1 | h1) | h1) | h1) | h1) | h1 <;> subst h1 <;>
      exact h (by decide)

theorem lower_isSp (c : Char) : isSp (lowerChar c) = isSp c := by
  by_cases hmem : c ∈ SPECIALS
  · have hall : ∀ x ∈ SPECIALS, isSp (lowerChar x) = isSp x := by decide
    exact hall c hmem
  · rw [lowerChar_notin c hmem]

theorem cls_char (c : Char) :
    (nfdChar (lowerChar c)).filter (fun d => !(isMn d)) =
      ((nfdChar c).filter (fun d => !(isMn d))).map lowerChar := by
  by_cases hmem : c ∈ SPECIALS
  · have hall : ∀ x ∈ SPECIALS, (nfdChar (lowerChar x)).filter (fun d => !(isMn d)) =
        ((nfdChar x).filter (fun d => !(isMn d))).map lowerChar := by decide
    exact hall c hmem
  · rw [lowerChar_notin c hmem, nfdChar_notin c hmem]
    simp [isMn_notin c hmem, lowerChar_notin c hmem]

theorem sp_char (c : Char) (h : isSp c = true) : nfdChar c = [c] ∧ isMn c = false := by
  by_cases hmem : c ∈ SPECIALS
  · have hall : ∀ x ∈ SPECIALS, isSp x = true → nfdChar x = [x] ∧ isMn x = false := by
      decide
    exact hall c hmem h
  · exact ⟨nfdChar_notin c hmem, isMn_notin c hmem⟩

theorem lower_notMn (c : Char) (h : isMn c = false) : isMn (lowerChar c) = false := by
  by_cases hmem : c ∈ SPECIALS
  · have hall : ∀ x ∈ SPECIALS, isMn x = false → isMn (lowerChar x) = false := by decide
    exact hall c hmem h
  · rw [lowerChar_notin c hmem]
    exact h

theorem block_ne_nil (c : Char) (h : isMn c = false) :
    (nfdChar c).filter (fun d => !(isMn d)) ≠ [] := by
  by_cases hmem : c ∈ SPECIALS
  · have hall : ∀ x ∈ SPECIALS, isMn x = false →
        (nfdChar x).filter (fun d => !(isMn d)) ≠ [] := by decide
    exact hall c hmem h
  · rw [nfdChar_notin c hmem]
    simp [h]

theorem block_sp (c : Char) :
    ∀ d ∈ (nfdChar c).filter (fun u => !(isMn u)), isSp d = isSp c := by
  by_cases hmem : c ∈ SPECIALS
  · have hall : ∀ x ∈ SPECIALS, ∀ d ∈ (nfdChar x).filter (fun u => !(isMn u)),
        isSp d = isSp x := by decide
    exact hall c hmem
  · rw [nfdChar_notin c hmem]
    intro d hd
    have hdc : d = c := by
      simp [isMn_notin c hmem] at hd
      exact hd
    rw [hdc]

theorem out_char (c : Char) :
    ∀ d ∈ (nfdChar (lowerChar c)).filter (fun u => !(isMn u)),
      lowerChar d = d ∧ nfdChar d = [d] ∧ isMn d = false := by
  by_cases hmem : c ∈ SPECIALS
  · have hall : ∀ x ∈ SPECIALS, ∀ d ∈ (nfdChar (lowerChar x)).filter (fun u => !(isMn u)),
        lowerChar d = d ∧ nfdChar d = [d] ∧ isMn d = false := by decide
    exact hall c hmem
  · rw [lowerChar_notin c hmem, nfdChar_notin c hmem]
    intro d hd
    have hdc : d = c := by
      simp [isMn_notin c hmem] at hd
      exact hd
    subst hdc
    exact ⟨lowerChar_notin d hmem, nfdChar_notin d hmem, isMn_notin d hmem⟩

theorem space_stable :
    lowerChar ' ' = ' ' ∧ nfdChar ' ' = [' '] ∧ isMn ' ' = false ∧ isSp ' ' = true := by
  decide

theorem stripMarks_cons (c : Char) (s : Str) :
    stripMarks (c :: s) = (nfdChar c).filter (fun u => !(isMn u)) ++ stripMarks s := by
  unfold stripMarks
  rw [List.map_cons, List.flatten_cons, List.filter_append]

theorem stripMarks_append (a b : Str) :
    stripMarks (a ++ b) = stripMarks a ++ stripMarks b := by
  induction a with
  | nil => rfl
  | cons c a' ih =>
    rw [List.cons_append, stripMarks_cons, stripMarks_cons, ih, List.append_assoc]

theorem stripMarks_map_lower (s : Str) :
    stripMarks (s.map lowerChar) = (stripMarks s).map lowerChar := by
  induction s with
  | nil => rfl
  | cons c s' ih =>
    rw [List.map_cons, stripMarks_cons, ih, cls_char, stripMarks_cons, List.map_append]

theorem trimL_map_lower (s : Str) : trimL (s.map lowerChar) = (trimL s).map lowerChar := by
  unfold trimL
  induction s with
  | nil => rfl
  | cons c s' ih =>
    rw [List.map_cons, List.dropWhile_cons, List.dropWhile_cons, lower_isSp]
    by_cases h : isSp c = true
    · rw [if_pos h, if_pos h]
      exact ih
    · rw [if_neg h, if_neg h]
      rfl

theorem trimR_map_lower (s : Str) : trimR (s.map lowerChar) = (trimR s).map lowerChar := by
  induction s with
  | nil => rfl
  | cons c s' ih =>
    rw [List.map_cons]
    simp only [trimR]
    rw [ih]
    cases htr : trimR s' with
    | nil =>
      simp only [List.map_nil]
      rw [lower_isSp]
      by_cases h : isSp c = true
      · simp only [if_pos h, List.map_nil]
      · simp only [if_neg h, List.map_cons, List.map_nil]
    | cons d r2 =>
      simp only [List.map_cons]

theorem trim_map_lower (s : Str) : trim (s.map lowerChar) = (trim s).map lowerChar := by
  unfold trim
  rw [trimL_map_lower, trimR_map_lower]

theorem collapseAux_map_lower (s : Str) :
    ∀ b, collapseAux b (s.map lowerChar) = (collapseAux b s).map lowerChar := by
  induction s with
  | nil => intro b; rfl
  | cons c s' ih =>
    intro b
    rw [List.map_cons]
    simp only [collapseAux]
    rw [lower_isSp]
    by_cases h : isSp c = true
    · rw [if_pos h, if_pos h]
      cases b with
      | true => simp [ih true]
      | false => simp [ih true, space_stable.1]
    · rw [if_neg h, if_neg h]
      simp [ih false]

theorem collapse_map_lower (s : Str) :
    collapse (s.map lowerChar) = (collapse s).map lowerChar :=
  collapseAux_map_lower s false

theorem stripMarks_all_sp (u : Str) (h : u.all isSp = true) : stripMarks u = u := by
  induction u with
  | nil => rfl
  | cons c r ih =>
    simp only [List.all_cons, Bool.and_eq_true] at h
    rw [stripMarks_cons, (sp_char c h.1).1, ih h.2]
    simp [(sp_char c h.1).2]

theorem norm_commute (x : Str) :
    norm x = (collapse (stripMarks (trim x))).map lowerChar := by
  unfold norm
  rw [trim_map_lower, stripMarks_map_lower, collapse_map_lower]

theorem trimR_decomp (u : Str) : ∃ suf, u = trimR u ++ suf ∧ suf.all isSp = true := by
  induction u with
  | nil => exact ⟨[], rfl, rfl⟩
  | cons c r ih =>
    obtain ⟨suf, hdec, hsp⟩ := ih
    simp only [trimR]
    cases htr : trimR r with
    | nil =>
      rw [htr, List.nil_append] at hdec
      by_cases h : isSp c = true
      · refine ⟨c :: r, ?_, ?_⟩
        · rw [if_pos h]
          rfl
        · simp only [List.all_cons, Bool.and_eq_true]
          exact ⟨h, by rw [hdec]; exact hsp⟩
      · refine ⟨r, ?_, ?_⟩
        · rw [if_neg h]
          rfl
        · rw [hdec]
          exact hsp
    | cons d r2 =>
      rw [htr] at hdec
      exact ⟨suf, by rw [hdec]; rfl, hsp⟩

theorem takeWhile_all_sp (u : Str) : (u.takeWhile isSp).all isSp = true := by
  rw [List.all_eq_true]
  intro x hx
  exact List.mem_takeWhile_imp hx

theorem trimL_app_ws (pre m : Str) (h : pre.all isSp = true) : trimL (pre ++ m) = trimL m := by
  induction pre with
  | nil => rfl
  | cons c r ih =>
    simp only [List.all_cons, Bool.and_eq_true] at h
    rw [List.cons_append]
    unfold trimL
    rw [List.dropWhile_cons, if_pos h.1]
    exact ih h.2

theorem trimR_all_sp (u : Str) (h : u.all isSp = true) : trimR u = [] := by
  induction u with
  | nil => rfl
  | cons c r ih =>
    simp only [List.all_cons, Bool.and_eq_true] at h
    simp only [trimR]
    rw [ih h.2]
    simp [h.1]

theorem trimR_app_ws (v suf : Str) (h : suf.all isSp = true) : trimR (v ++ suf) = trimR v := by
  induction v with
  | nil =>
    rw [List.nil_append, trimR_all_sp suf h]
    rfl
  | cons c r ih =>
    rw [List.cons_append]
    simp only [trimR]
    rw [ih]

theorem trim_pad (pre v suf : Str) (hpre : pre.all isSp = true) (hsuf : suf.all isSp = true) :
    trim (pre ++ (v ++ suf)) = trim v := by
  unfold trim
  rw [trimL_app_ws pre (v ++ suf) hpre]
  by_cases hv : v.all isSp = true
  · have h1 : (v ++ suf).all isSp = true := by
      rw [List.all_append]
      simp [hv, hsuf]
    have h2 : trimL (v ++ suf) = [] := by
      unfold trimL
      rw [List.dropWhile_eq_nil_iff]
      intro x hx
      exact List.all_eq_true.mp h1 x hx
    have h3 : trimL v = [] := by
      unfold trimL
      rw [List.dropWhile_eq_nil_iff]
      intro x hx
      exact List.all_eq_true.mp hv x hx
    rw [h2, h3]
  · have h4 : trimL (v ++ suf) = trimL v ++ suf := by
      unfold trimL
      exact dw_app_not_all isSp v suf hv
    rw [h4, trimR_app_ws (trimL v) suf hsuf]

theorem trim_strip_trim (x : Str) : trim (stripMarks (trim x)) = trim (stripMarks x) := by
  obtain ⟨suf, hdec, hsuf⟩ := trimR_decomp (trimL x)
  have hdec' : trimL x = trim x ++ suf := hdec
  have h0 : x.takeWhile isSp ++ x.dropWhile isSp = x := List.takeWhile_append_dropWhile isSp x
  have hx : x = x.takeWhile isSp ++ (trim x ++ suf) := by
    calc x = x.takeWhile isSp ++ x.dropWhile isSp := h0.symm
      _ = x.takeWhile isSp ++ (trim x ++ suf) := by
          rw [show x.dropWhile isSp = trim x ++ suf from hdec']
  have hsm : stripMarks x = x.takeWhile isSp ++ (stripMarks (trim x) ++ suf) := by
    conv_lhs => rw [hx]
    rw [stripMarks_append, stripMarks_append,
        stripMarks_all_sp (x.takeWhile isSp) (takeWhile_all_sp x),
        stripMarks_all_sp suf hsuf]
  calc trim (stripMarks (trim x))
      = trim (x.takeWhile isSp ++ (stripMarks (trim x) ++ suf)) :=
        (trim_pad (x.takeWhile isSp) (stripMarks (trim x)) suf (takeWhile_all_sp x) hsuf).symm
    _ = trim (stripMarks x) := by rw [← hsm]

theorem collapseAux_cons_sp_t (c : Char) (r : Str) (h : isSp c = true) :
    collapseAux true (c :: r) = collapseAux true r := by
  simp [collapseAux, h]

theorem collapseAux_cons_sp_f (c : Char) (r : Str) (h : isSp c = true) :
    collapseAux false (c :: r) = ' ' :: collapseAux true r := by
  simp [collapseAux, h]

theorem collapseAux_cons_ns (b : Bool) (c : Char) (r : Str) (h : isSp c = false) :
    collapseAux b (c :: r) = c :: collapseAux false r := by
  simp [collapseAux, h]

theorem collapseAux_true_drop (r : Str) :
    collapseAux true r = collapseAux false (r.dropWhile isSp) := by
  induction r with
  | nil => rfl
  | cons d t ih =>
    by_cases h : isSp d = true
    · rw [collapseAux_cons_sp_t d t h, List.dropWhile_cons, if_pos h]
      exact ih
    · have h' : isSp d = false := by
        cases hc : isSp d with
        | false => rfl
        | true => exact absurd hc h
      rw [collapseAux_cons_ns true d t h', List.dropWhile_cons, if_neg h,
          collapseAux_cons_ns false d t h']

theorem collapse_lead (w : Str) :
    collapse w = collapse (trimL w) ∨ collapse w = ' ' :: collapse (trimL w) := by
  cases w with
  | nil => exact Or.inl rfl
  | cons c r =>
    by_cases h : isSp c = true
    · right
      unfold collapse
      rw [collapseAux_cons_sp_f c r h, collapseAux_true_drop r]
      unfold trimL
      rw [List.dropWhile_cons, if_pos h]
    · left
      unfold trimL
      rw [List.dropWhile_cons, if_neg h]

theorem collapseAux_all_sp (suf : Str) (h : suf.all isSp = true) :
    collapseAux true suf = [] ∧
      (collapseAux false suf = [] ∨ collapseAux false suf = [' ']) := by
  induction suf with
  | nil => exact ⟨rfl, Or.inl rfl⟩
  | cons c t ih =>
    simp only [List.all_cons, Bool.and_eq_true] at h
    obtain ⟨ih1, _⟩ := ih h.2
    refine ⟨?_, ?_⟩
    · rw [collapseAux_cons_sp_t c t h.1]
      exact ih1
    · right
      rw [collapseAux_cons_sp_f c t h.1, ih1]

theorem collapseAux_app_ws (suf : Str) (hsuf : suf.all isSp = true) :
    ∀ u b, collapseAux b (u ++ suf) = collapseAux b u ∨
      collapseAux b (u ++ suf) = collapseAux b u ++ [' '] := by
  intro u
  induction u with
  | nil =>
    intro b
    obtain ⟨h1, h2⟩ := collapseAux_all_sp suf hsuf
    cases b with
    | true =>
      left
      rw [List.nil_append, h1]
      rfl
    | false =>
      rcases h2 with h2 | h2
      · left
        rw [List.nil_append, h2]
        rfl
      · right
        rw [List.nil_append, h2]
        rfl
  | cons c u' ih =>
    intro b
    rw [List.cons_append]
    by_cases h : isSp c = true
    · cases b with
      | true =>
        rw [collapseAux_cons_sp_t c (u' ++ suf) h, collapseAux_cons_sp_t c u' h]
        exact ih true
      | false =>
        rw [collapseAux_cons_sp_f c (u' ++ suf) h, collapseAux_cons_sp_f c u' h]
        rcases ih true with h3 | h3
        · left
          rw [h3]
        · right
          rw [h3]
          rfl
    · have h' : isSp c = false := by
        cases hc : isSp c with
        | false => rfl
        | true => exact absurd hc h
      rw [collapseAux_cons_ns b c (u' ++ suf) h', collapseAux_cons_ns b c u' h']
      rcases ih false with h3 | h3
      · left
        rw [h3]
      · right
        rw [h3]
        rfl

theorem collapse_shape (w : Str) :
    ∃ p q : Str, (p = [] ∨ p = [' ']) ∧ (q = [] ∨ q = [' ']) ∧
      collapse w = p ++ (collapse (trim w) ++ q) := by
  obtain ⟨suf, hdec, hsuf⟩ := trimR_decomp (trimL w)
  have hdec' : trimL w = trim w ++ suf := hdec
  have hmid := collapseAux_app_ws suf hsuf (trim w) false
  have hcl : collapse (trimL w) = collapseAux false (trim w ++ suf) := by
    unfold collapse
    rw [hdec']
  rcases collapse_lead w with hl | hl <;> rcases hmid with hm | hm
  · refine ⟨[], [], Or.inl rfl, Or.inl rfl, ?_⟩
    rw [hl, hcl, hm, List.nil_append, List.append_nil]
    rfl
  · refine ⟨[], [' '], Or.inl rfl, Or.inr rfl, ?_⟩
    rw [hl, hcl, hm, List.nil_append]
    rfl
  · refine ⟨[' '], [], Or.inr rfl, Or.inl rfl, ?_⟩
    rw [hl, hcl, hm, List.append_nil]
    rfl
  · refine ⟨[' '], [' '], Or.inr rfl, Or.inr rfl, ?_⟩
    rw [hl, hcl, hm]
    rfl

theorem norm_shape (x : Str) :
    norm x = normCore x ∨ norm x = ' ' :: normCore x ∨
      norm x = normCore x ++ [' '] ∨ norm x = ' ' :: (normCore x ++ [' ']) := by
  obtain ⟨p, q, hp, hq, hshape⟩ := collapse_shape (stripMarks (trim x))
  have h1 : norm x = (p ++ (collapse (trim (stripMarks (trim x))) ++ q)).map lowerChar := by
    rw [norm_commute, hshape]
  rw [trim_strip_trim, List.map_append, List.map_append] at h1
  rcases hp with hp | hp <;> rcases hq with hq | hq <;> subst hp <;> subst hq
  · left
    rw [h1]
    simp [normCore]
  · right; right; left
    rw [h1]
    simp [normCore, space_stable.1]
  · right; left
    rw [h1]
    simp [normCore, space_stable.1]
  · right; right; right
    rw [h1]
    simp [normCore, space_stable.1]

theorem detect_norm_core (x : Str) : detectCore (norm x) = detectCore (normCore x) := by
  rcases norm_shape x with h | h | h | h <;> rw [h]
  · rw [detectCore_lead]
  · rw [detectCore_trail]
  · rw [detectCore_lead, detectCore_trail]

/-- C8: diacritic equivalence of intent detection — two inputs that become
equal after NFD decomposition and removal of the combining diacritical marks
(they differ only by accents) are assigned the same intent by detect_intent;
the normaliser reduces both to texts whose padding-independent core is
identical, and the intent matcher is invariant under the single-space edge
padding that may remain. -/
theorem C8_diacritic_equivalence (x y : Str) (h : stripMarks x = stripMarks y) :
    detect_intent x = detect_intent y := by
  unfold detect_intent
  rw [detect_norm_core x, detect_norm_core y]
  unfold normCore
  rw [h]

theorem C8_witness :
    stripMarks (str "días") = stripMarks (str "dias") ∧
      detect_intent (str "días") = detect_intent (str "dias") :=
  ⟨by decide, C8_diacritic_equivalence (str "días") (str "dias") (by decide)⟩

theorem getLast?_app (a b : Str) (hb : b ≠ []) : (a ++ b).getLast? = b.getLast? := by
  induction a with
  | nil => rfl
  | cons c a' ih =>
    have hab : a' ++ b ≠ [] := by
      intro hcon
      rcases List.append_eq_nil.mp hcon with ⟨_, h2⟩
      exact hb h2
    rw [List.cons_append]
    cases hcase : a' ++ b with
    | nil => exact absurd hcase hab
    | cons d t =>
      rw [List.getLast?_cons_cons, ← hcase, ih]

theorem collapse_idem_aux (w : Str) :
    ∀ b, collapseAux b (collapseAux b w) = collapseAux b w := by
  induction w with
  | nil => intro b; rfl
  | cons c r ih =>
    intro b
    by_cases h : isSp c = true
    · cases b with
      | true =>
        rw [collapseAux_cons_sp_t c r h]
        exact ih true
      | false =>
        rw [collapseAux_cons_sp_f c r h,
            collapseAux_cons_sp_f ' ' (collapseAux true r) (by decide), ih true]
    · have h' : isSp c = false := by
        cases hc : isSp c with
        | false => rfl
        | true => exact absurd hc h
      rw [collapseAux_cons_ns b c r h',
          collapseAux_cons_ns b c (collapseAux false r) h', ih false]

theorem mem_collapseAux (w : Str) :
    ∀ b d, d ∈ collapseAux b w → d = ' ' ∨ d ∈ w := by
  induction w with
  | nil =>
    intro b d hd
    exact absurd hd (by simp [collapseAux])
  | cons c r ih =>
    intro b d hd
    by_cases h : isSp c = true
    · cases b with
      | true =>
        rw [collapseAux_cons_sp_t c r h] at hd
        rcases ih true d hd with h1 | h1
        · exact Or.inl h1
        · exact Or.inr (List.mem_cons_of_mem c h1)
      | false =>
        rw [collapseAux_cons_sp_f c r h] at hd
        rcases List.mem_cons.mp hd with h1 | h1
        · exact Or.inl h1
        · rcases ih true d h1 with h2 | h2
          · exact Or.inl h2
          · exact Or.inr (List.mem_cons_of_mem c h2)
    · have h' : isSp c = false := by
        cases hc : isSp c with
        | false => rfl
        | true => exact absurd hc h
      rw [collapseAux_cons_ns b c r h'] at hd
      rcases List.mem_cons.mp hd with h1 | h1
      · refine Or.inr ?_
        rw [h1]
        exact List.mem_cons_self c r
      · rcases ih false d h1 with h2 | h2
        · exact Or.inl h2
        · exact Or.inr (List.mem_cons_of_mem c h2)

theorem mem_stripMarks (v : Str) (d : Char) :
    d ∈ stripMarks v → ∃ e ∈ v, d ∈ (nfdChar e).filter (fun u => !(isMn u)) := by
  induction v with
  | nil =>
    intro hd
    exact absurd hd (by simp [stripMarks])
  | cons e v' ih =>
    intro hd
    rw [stripMarks_cons] at hd
    rcases List.mem_append.mp hd with h1 | h1
    · exact ⟨e, List.mem_cons_self e v', h1⟩
    · obtain ⟨e', he', hd'⟩ := ih h1
      exact ⟨e', List.mem_cons_of_mem e he', hd'⟩

theorem lastNS_cons (c : Char) (X : Str) (hX : X ≠ []) : lastNS (c :: X) = lastNS X := by
  unfold lastNS
  cases X with
  | nil => exact absurd rfl hX
  | cons d t => rw [List.getLast?_cons_cons]

theorem lastNS_app (a b : Str) (hb : b ≠ []) : lastNS (a ++ b) = lastNS b := by
  unfold lastNS
  rw [getLast?_app a b hb]

theorem lastNS_of_all (l : Str) (hne : l ≠ []) (h : ∀ d ∈ l, isSp d = false) :
    lastNS l = true := by
  induction l with
  | nil => exact absurd rfl hne
  | cons c t ih =>
    cases ht : t with
    | nil =>
      subst ht
      unfold lastNS
      rw [List.getLast?_singleton]
      simp [h c (List.mem_cons_self c [])]
    | cons d t' =>
      subst ht
      rw [lastNS_cons c (d :: t') (by simp)]
      exact ih (by simp) (fun d' hd' => h d' (List.mem_cons_of_mem c hd'))

theorem headNS_trimL (u : Str) : trimL u = [] ∨ headNS (trimL u) = true := by
  induction u with
  | nil => exact Or.inl rfl
  | cons c r ih =>
    by_cases h : isSp c = true
    · unfold trimL at ih ⊢
      rw [List.dropWhile_cons, if_pos h]
      exact ih
    · right
      have h' : isSp c = false := by
        cases hc : isSp c with
        | false => rfl
        | true => exact absurd hc h
      unfold trimL
      rw [List.dropWhile_cons, if_neg h]
      show (!(isSp c)) = true
      rw [h']
      rfl

theorem lastNS_trimR (u : Str) : trimR u = [] ∨ lastNS (trimR u) = true := by
  induction u with
  | nil => exact Or.inl rfl
  | cons c r ih =>
    simp only [trimR]
    cases htr : trimR r with
    | nil =>
      by_cases h : isSp c = true
      · left
        rw [if_pos h]
      · right
        have h' : isSp c = false := by
          cases hc : isSp c with
          | false => rfl
          | true => exact absurd hc h
        rw [if_neg h]
        show lastNS [c] = true
        unfold lastNS
        rw [List.getLast?_singleton]
        simp [h']
    | cons d r2 =>
      right
      have hlast : lastNS (d :: r2) = true := by
        rcases ih with ih1 | ih1
        · rw [ih1] at htr
          exact List.noConfusion htr
        · rw [htr] at ih1
          exact ih1
      show lastNS (c :: d :: r2) = true
      unfold lastNS at hlast ⊢
      rw [List.getLast?_cons_cons]
      exact hlast

theorem headNS_stripMarks (v : Str) (hne : v ≠ []) (hh : headNS v = true)
    (hmn : ∀ e ∈ v, isMn e = false) :
    stripMarks v ≠ [] ∧ headNS (stripMarks v) = true := by
  cases v with
  | nil => exact absurd rfl hne
  | cons e v' =>
    rw [stripMarks_cons]
    have hbne := block_ne_nil e (hmn e (List.mem_cons_self e v'))
    cases hb : (nfdChar e).filter (fun u => !(isMn u)) with
    | nil => exact absurd hb hbne
    | cons d bt =>
      refine ⟨by simp, ?_⟩
      have hd : d ∈ (nfdChar e).filter (fun u => !(isMn u)) := by
        rw [hb]
        exact List.mem_cons_self d bt
      have hsp := block_sp e d hd
      have he : (!(isSp e)) = true := hh
      show (!(isSp d)) = true
      rw [hsp]
      exact he

theorem lastNS_stripMarks (v : Str) (hl : lastNS v = true)
    (hmn : ∀ e ∈ v, isMn e = false) :
    stripMarks v ≠ [] ∧ lastNS (stripMarks v) = true := by
  induction v with
  | nil => exact absurd hl (by decide)
  | cons e v' ih =>
    cases hv' : v' with
    | nil =>
      subst hv'
      rw [stripMarks_cons]
      have hbne := block_ne_nil e (hmn e (List.mem_cons_self e []))
      have hsp_e : isSp e = false := by
        unfold lastNS at hl
        rw [List.getLast?_singleton] at hl
        simpa using hl
      rw [show stripMarks ([] : Str) = [] from rfl, List.append_nil]
      refine ⟨hbne, ?_⟩
      apply lastNS_of_all _ hbne
      intro d hd
      rw [block_sp e d hd]
      exact hsp_e
    | cons f t =>
      subst hv'
      rw [stripMarks_cons]
      have hl' : lastNS (f :: t) = true := by
        rw [← lastNS_cons e (f :: t) (by simp)]
        exact hl
      obtain ⟨hne', hlast'⟩ := ih hl' (fun d hd => hmn d (List.mem_cons_of_mem e hd))
      refine ⟨?_, ?_⟩
      · intro hcon
        rcases List.append_eq_nil.mp hcon with ⟨_, h2⟩
        exact hne' h2
      · rw [lastNS_app _ _ hne']
        exact hlast'

theorem collapse_headNS (w : Str) (hh : headNS w = true) :
    collapse w ≠ [] ∧ headNS (collapse w) = true := by
  cases w with
  | nil => exact absurd hh (by decide)
  | cons c r =>
    have hc : isSp c = false := by
      have h0 : (!(isSp c)) = true := hh
      simpa using h0
    unfold collapse
    rw [collapseAux_cons_ns false c r hc]
    refine ⟨by simp, ?_⟩
    show (!(isSp c)) = true
    rw [hc]
    rfl

theorem collapse_lastNS (w : Str) : ∀ b, w ≠ [] → lastNS w = true →
    collapseAux b w ≠ [] ∧ lastNS (collapseAux b w) = true := by
  induction w with
  | nil =>
    intro b hne _
    exact absurd rfl hne
  | cons c r ih =>
    intro b _ hl
    cases hr : r with
    | nil =>
      subst hr
      have hc : isSp c = false := by
        unfold lastNS at hl
        rw [List.getLast?_singleton] at hl
        simpa using hl
      rw [collapseAux_cons_ns b c [] hc]
      refine ⟨by simp, ?_⟩
      show lastNS [c] = true
      unfold lastNS
      rw [List.getLast?_singleton]
      simp [hc]
    | cons d t =>
      subst hr
      have hl' : lastNS (d :: t) = true := by
        rw [← lastNS_cons c (d :: t) (by simp)]
        exact hl
      by_cases h : isSp c = true
      · cases b with
        | true =>
          rw [collapseAux_cons_sp_t c (d :: t) h]
          exact ih true (by simp) hl'
        | false =>
          rw [collapseAux_cons_sp_f c (d :: t) h]
          obtain ⟨h1, h2⟩ := ih true (by simp) hl'
          refine ⟨by simp, ?_⟩
          rw [lastNS_cons ' ' _ h1]
          exact h2
      · have h' : isSp c = false := by
          cases hcs : isSp c with
          | false => rfl
          | true => exact absurd hcs h
        rw [collapseAux_cons_ns b c (d :: t) h']
        obtain ⟨h1, h2⟩ := ih false (by simp) hl'
        refine ⟨by simp, ?_⟩
        rw [lastNS_cons c _ h1]
        exact h2

theorem mem_trimL (u : Str) (d : Char) (hd : d ∈ trimL u) : d ∈ u := by
  have h0 : u.takeWhile isSp ++ u.dropWhile isSp = u := List.takeWhile_append_dropWhile isSp u
  rw [← h0]
  exact List.mem_append.mpr (Or.inr hd)

theorem mem_trimR (u : Str) (d : Char) (hd : d ∈ trimR u) : d ∈ u := by
  obtain ⟨suf, hdec, _⟩ := trimR_decomp u
  rw [hdec]
  exact List.mem_append.mpr (Or.inl hd)

theorem mem_trim (u : Str) (d : Char) (hd : d ∈ trim u) : d ∈ u :=
  mem_trimL u d (mem_trimR (trimL u) d hd)

theorem map_lower_self (z : Str) (h : ∀ d ∈ z, lowerChar d = d) : z.map lowerChar = z := by
  induction z with
  | nil => rfl
  | cons c r ih =>
    rw [List.map_cons, h c (List.mem_cons_self c r),
        ih (fun d hd => h d (List.mem_cons_of_mem c hd))]

theorem stripMarks_self (z : Str)
    (h : ∀ d ∈ z, nfdChar d = [d] ∧ isMn d = false) : stripMarks z = z := by
  induction z with
  | nil => rfl
  | cons c r ih =>
    rw [stripMarks_cons, (h c (List.mem_cons_self c r)).1,
        ih (fun d hd => h d (List.mem_cons_of_mem c hd))]
    simp [(h c (List.mem_cons_self c r)).2]

theorem trimL_self (z : Str) (h : headNS z = true) : trimL z = z := by
  cases z with
  | nil => exact absurd h (by decide)
  | cons c r =>
    have hc : isSp c = false := by
      have h0 : (!(isSp c)) = true := h
      simpa using h0
    unfold trimL
    rw [List.dropWhile_cons, if_neg (by simp [hc])]

theorem trimR_cons_eq (c : Char) (r : Str) :
    trimR (c :: r) = match trimR r with
      | [] => if isSp c = true then [] else [c]
      | e :: r2 => c :: e :: r2 := by
  simp only [trimR]

theorem trimR_self (z : Str) (h : lastNS z = true) : trimR z = z := by
  induction z with
  | nil => exact absurd h (by decide)
  | cons c r ih =>
    cases hr : r with
    | nil =>
      subst hr
      have hc : isSp c = false := by
        unfold lastNS at h
        rw [List.getLast?_singleton] at h
        simpa using h
      simp only [trimR]
      simp [hc]
    | cons d t =>
      subst hr
      have h' : lastNS (d :: t) = true := by
        rw [← lastNS_cons c (d :: t) (by simp)]
        exact h
      rw [trimR_cons_eq c (d :: t), ih h']

/-- C4 (counterexample): normalisation is not idempotent on every input.  On
a text starting with a bare combining acute accent followed by a space, the
first pass deletes the mark after the edges were already stripped, leaving a
leading space that only the second pass removes. -/
theorem C4_counterexample :
    norm (norm ['́', ' ', 'a']) ≠ norm ['́', ' ', 'a'] := by decide

/-- C4 (amended): normalisation is idempotent on every input that contains
no combining diacritical mark — in particular on every precomposed text.
The output of the normaliser is then made of characters that are fixed by
lower-casing and NFD stripping, carries no edge whitespace, and has its
whitespace runs already collapsed, so a second pass returns it unchanged. -/
theorem C4_norm_idempotent_amended (x : Str) (hx : ∀ c ∈ x, isMn c = false) :
    norm (norm x) = norm x := by
  by_cases hv : trim (x.map lowerChar) = []
  · have hnx : norm x = [] := by
      unfold norm
      rw [hv]
      rfl
    rw [hnx]
    rfl
  · have hvm : ∀ e ∈ trim (x.map lowerChar), isMn e = false := by
      intro e he
      obtain ⟨c, hc, hce⟩ := List.mem_map.mp (mem_trim (x.map lowerChar) e he)
      rw [← hce]
      exact lower_notMn c (hx c hc)
    have hvlow : ∀ e ∈ trim (x.map lowerChar), ∃ c, e = lowerChar c := by
      intro e he
      obtain ⟨c, _, hce⟩ := List.mem_map.mp (mem_trim (x.map lowerChar) e he)
      exact ⟨c, hce.symm⟩
    have hheadv : headNS (trim (x.map lowerChar)) = true := by
      rcases headNS_trimL (x.map lowerChar) with h1 | h1
      · exact absurd (show trim (x.map lowerChar) = [] from by unfold trim; rw [h1]; rfl) hv
      · obtain ⟨suf, hdec, _⟩ := trimR_decomp (trimL (x.map lowerChar))
        cases htv : trimR (trimL (x.map lowerChar)) with
        | nil => exact absurd htv hv
        | cons d t =>
          rw [htv] at hdec
          rw [hdec] at h1
          show headNS (trimR (trimL (x.map lowerChar))) = true
          rw [htv]
          exact h1
    have hlastv : lastNS (trim (x.map lowerChar)) = true := by
      rcases lastNS_trimR (trimL (x.map lowerChar)) with h1 | h1
      · exact absurd h1 hv
      · exact h1
    have hwh := headNS_stripMarks (trim (x.map lowerChar)) hv hheadv hvm
    have hwl := lastNS_stripMarks (trim (x.map lowerChar)) hlastv hvm
    have hzh := collapse_headNS (stripMarks (trim (x.map lowerChar))) hwh.2
    have hzl := collapse_lastNS (stripMarks (trim (x.map lowerChar))) false hwl.1 hwl.2
    have hstab : ∀ d ∈ norm x, lowerChar d = d ∧ nfdChar d = [d] ∧ isMn d = false := by
      intro d hd
      have hd' : d ∈ collapseAux false (stripMarks (trim (x.map lowerChar))) := hd
      rcases mem_collapseAux (stripMarks (trim (x.map lowerChar))) false d hd' with h1 | h1
      · subst h1
        exact ⟨space_stable.1, space_stable.2.1, space_stable.2.2.1⟩
      · obtain ⟨e, he, hdblock⟩ := mem_stripMarks (trim (x.map lowerChar)) d h1
        obtain ⟨c, hce⟩ := hvlow e he
        rw [hce] at hdblock
        exact out_char c d hdblock
    have hmap : (norm x).map lowerChar = norm x :=
      map_lower_self (norm x) (fun d hd => (hstab d hd).1)
    have hheadz : headNS (norm x) = true := hzh.2
    have hlastz : lastNS (norm x) = true := hzl.2
    have htrL : trimL (norm x) = norm x := trimL_self (norm x) hheadz
    have htrR : trimR (norm x) = norm x := trimR_self (norm x) hlastz
    have hstrip : stripMarks (norm x) = norm x :=
      stripMarks_self (norm x) (fun d hd => ⟨(hstab d hd).2.1, (hstab d hd).2.2⟩)
    have hcol : collapse (norm x) = norm x := by
      show collapseAux false (collapseAux false (stripMarks (trim (x.map lowerChar)))) = _
      rw [collapse_idem_aux (stripMarks (trim (x.map lowerChar))) false]
      rfl
    show collapse (stripMarks (trim ((norm x).map lowerChar))) = norm x
    rw [hmap]
    unfold trim
    rw [htrL, htrR, hstrip, hcol]

theorem C4_witness :
    (∀ c ∈ str "Hola   MUNDO  que tal", isMn c = false) ∧
      norm (norm (str "Hola   MUNDO  que tal")) = norm (str "Hola   MUNDO  que tal") :=
  ⟨by decide, C4_norm_idempotent_amended (str "Hola   MUNDO  que tal") (by decide)⟩

end Nlu
